import Mathlib

/-!
MQTT control-packet codec (`packet.go`): shallow embedding and verification.

The Go source is embedded as pure Lean functions.

* A Go `byte` is a `Fin 256`; the conversion `byte(x)` is `Byte.ofNat x`, i.e. `x % 256`.
* A Go `uint16` is a `Fin 65536`; arithmetic on it is reduced `% 65536` explicitly.
* A Go `string` and a Go `[]byte` are a `List Byte` (a slice is modelled with capacity equal
  to its length).
* A Go `int` that only ever holds a length or an index is a `Nat`.
* A run of Go code either returns a value, panics (index out of range, slice bounds out of
  range, `panic(err)`), or, in the embedding only, runs out of the fuel that bounds a loop.
  The three are kept apart in `Res`.
-/

namespace MqttProxy

/-- The outcome of running a piece of the Go program. -/
inductive Res (α : Type) where
  /-- normal return -/
  | ok (val : α) : Res α
  /-- Go run-time panic -/
  | panic : Res α
  /-- the loop bound of the embedding was exhausted (never the case for the fuel the
  top-level functions pass, see the totality lemmas) -/
  | outOfFuel : Res α
  deriving DecidableEq, Repr

/-- Sequencing: a panic or fuel exhaustion aborts everything that follows. -/
def Res.bind {α β : Type} (r : Res α) (f : α → Res β) : Res β :=
  match r with
  | .ok a => f a
  | .panic => .panic
  | .outOfFuel => .outOfFuel

/-- Go `byte`. -/
abbrev Byte := Fin 256

/-- Go conversion `byte(x)` of a non-negative integer: keep the low 8 bits. -/
def Byte.ofNat (n : Nat) : Byte := ⟨n % 256, Nat.mod_lt n (by decide)⟩

/-- Go `uint16`. -/
abbrev UInt16' := Fin 65536

/-- Go conversion `uint16(x)` of a non-negative integer: keep the low 16 bits. -/
def u16 (n : Nat) : UInt16' := ⟨n % 65536, Nat.mod_lt n (by decide)⟩

/-- Indexed read `buff[i]`: panics when `i` is out of range. -/
def index (buff : List Byte) (i : Nat) : Res Byte :=
  match buff[i]? with
  | some v => .ok v
  | none => .panic

/-- Indexed write `buff[i] = v`: panics when `i` is out of range. -/
def setIdx (buff : List Byte) (i : Nat) (v : Byte) : Res (List Byte) :=
  if i < buff.length then .ok (buff.set i v) else .panic

/-- Slice expression `buff[lo:hi]`: panics unless `lo ≤ hi ≤ cap(buff)`; the capacity of
the modelled slice is its length. -/
def slice (buff : List Byte) (lo hi : Nat) : Res (List Byte) :=
  if lo ≤ hi ∧ hi ≤ buff.length then .ok ((buff.drop lo).take (hi - lo)) else .panic

/-- Go builtin `copy(dst[pos:], src)` seen on the whole of `dst`: overwrites
`min(len(dst) - pos, len(src))` bytes starting at `pos`, never grows `dst`. -/
def copyAt (dst : List Byte) (pos : Nat) (src : List Byte) : List Byte :=
  dst.take pos ++ src.take (dst.length - pos) ++ dst.drop (pos + src.length)

/-! ## `getRL` -/

/-- The loop of `getRL`: `for s > 0 { b[l] = byte(s & 0x7f); s = s >> 7;
if s > 0 { b[l] = b[l] | 0x80 }; l++ }`. -/
def getRLLoop : Nat → Nat → Nat → List Byte → Res (Nat × List Byte)
  | fuel, s, l, b =>
    if s > 0 then
      match fuel with
      | 0 => .outOfFuel
      | fuel + 1 =>
        (setIdx b l (Byte.ofNat (s &&& 0x7f))).bind fun b =>
        let s := s >>> 7
        (if s > 0 then
          (index b l).bind fun v => setIdx b l (Byte.ofNat (v.val ||| 0x80))
         else .ok b).bind fun b =>
        getRLLoop fuel s (l + 1) b
    else .ok (l, b)

/-- `getRL(s)` for `s ≥ 0`: the byte count and the 4-byte buffer. Every iteration of
the loop at least halves `s`, so `s` iterations always suffice. -/
def getRL (s : Nat) : Res (Nat × List Byte) :=
  getRLLoop s s 0 (List.replicate 4 0)

/-! ## Packets -/

/-- `TopicFilter`. -/
structure TopicFilter where
  Name : List Byte
  QoS : Byte
  deriving DecidableEq, Repr

/-- `ConnectPacket`. -/
structure ConnectPacket where
  ProtocolName : List Byte
  Version : Byte
  Flags : Byte
  KeepAlive : UInt16'
  ClientId : List Byte
  Username : List Byte
  Password : List Byte
  WillTopic : List Byte
  WillMsg : List Byte
  deriving DecidableEq, Repr

/-- `SubscribePacket`; the Go slice of pointers is a list of values. -/
structure SubscribePacket where
  Id : UInt16'
  TopicFilters : List TopicFilter
  deriving DecidableEq, Repr

/-- `PublishPacket`. -/
structure PublishPacket where
  Topic : List Byte
  Payload : List Byte
  deriving DecidableEq, Repr

/-- `SetUsername`: `cnx.Username = u; cnx.Flags |= 0x80`. -/
def ConnectPacket.SetUsername (cnx : ConnectPacket) (u : List Byte) : ConnectPacket :=
  { cnx with Username := u, Flags := Byte.ofNat (cnx.Flags.val ||| 0x80) }

/-- `SetPassword`: `cnx.Password = p; cnx.Flags |= 0x40`. -/
def ConnectPacket.SetPassword (cnx : ConnectPacket) (p : List Byte) : ConnectPacket :=
  { cnx with Password := p, Flags := Byte.ofNat (cnx.Flags.val ||| 0x40) }

/-- `isWillFlag`: `cnx.Flags&0x04 > 0`. -/
def ConnectPacket.isWillFlag (cnx : ConnectPacket) : Bool :=
  decide (cnx.Flags.val &&& 0x04 > 0)

/-- `isUserFlag`: `cnx.Flags&0x80 > 0`. -/
def ConnectPacket.isUserFlag (cnx : ConnectPacket) : Bool :=
  decide (cnx.Flags.val &&& 0x80 > 0)

/-- `isPasswordFlag`: `cnx.Flags&0x40 > 0`. -/
def ConnectPacket.isPasswordFlag (cnx : ConnectPacket) : Bool :=
  decide (cnx.Flags.val &&& 0x40 > 0)

/-! ## Length-prefixed strings -/

/-- `putBytes(buff, pos, s)`: returns the updated buffer and `2 + len(s)`.
`(*buff)[pos] = byte(l >> 8); (*buff)[pos+1] = byte(l & 0xff); copy((*buff)[pos+2:], s)`. -/
def putBytes (buff : List Byte) (pos : Nat) (s : List Byte) : Res (List Byte × Nat) :=
  let l := s.length
  (setIdx buff pos (Byte.ofNat (l >>> 8))).bind fun buff =>
  (setIdx buff (pos + 1) (Byte.ofNat (l &&& 0xff))).bind fun buff =>
  if pos + 2 ≤ buff.length then .ok (copyAt buff (pos + 2) s, 2 + l) else .panic

/-- `getByte` on a `bytes.Buffer`, modelled by its unread bytes: `ReadByte` fails at
the end of the buffer and `getByte` panics on that error. Returns the byte and the
buffer after the read. -/
def getByte (buff : List Byte) : Res (Byte × List Byte) :=
  match buff with
  | [] => .panic
  | v :: rest => .ok (v, rest)

/-- `decodeString` on a `bytes.Buffer`: two `getByte`s, then `buff.Next(int(pLen))`,
which returns the next `pLen` bytes, or the whole rest of the buffer when fewer are left. -/
def decodeString (buff : List Byte) : Res (List Byte × List Byte) :=
  (getByte buff).bind fun (msb, buff) =>
  (getByte buff).bind fun (lsb, buff) =>
  let pLen := u16 ((u16 (msb.val <<< 8)).val ||| lsb.val)
  .ok (buff.take pLen.val, buff.drop pLen.val)

/-! ## CONNECT -/

/-- The loop `for i := 0; i < rlLen; i++ { buff[i+1] = rlBytes[i] }`, by recursion on
the number of iterations still to run. -/
def rlCopyLoop : Nat → Nat → List Byte → List Byte → Res (List Byte)
  | 0, _, _, buff => .ok buff
  | n + 1, i, rlBytes, buff =>
    (index rlBytes i).bind fun v =>
    (setIdx buff (i + 1) v).bind fun buff =>
    rlCopyLoop n (i + 1) rlBytes buff

/-- The local `size` of `GetBytes`: the Remaining Length of the packet. -/
def ConnectPacket.size (cnx : ConnectPacket) : Nat :=
  let size := 8 + cnx.ProtocolName.length + cnx.ClientId.length
  let size := if cnx.isUserFlag then size + (2 + cnx.Username.length) else size
  let size := if cnx.isPasswordFlag then size + (2 + cnx.Password.length) else size
  let size := if cnx.isWillFlag then size + (4 + cnx.WillTopic.length + cnx.WillMsg.length) else size
  size

/-- `GetBytes`. Note the literal position `2` of the first `putBytes`, as in the source. -/
def ConnectPacket.GetBytes (cnx : ConnectPacket) : Res (List Byte) :=
  let size := cnx.size
  (getRL size).bind fun (rlLen, rlBytes) =>
  let buff : List Byte := List.replicate (size + rlLen + 1) 0
  (setIdx buff 0 0x10).bind fun buff =>
  (rlCopyLoop rlLen 0 rlBytes buff).bind fun buff =>
  let offset := 1 + rlLen
  (putBytes buff 2 cnx.ProtocolName).bind fun (buff, n) =>
  let offset := offset + n
  (setIdx buff (0 + offset) cnx.Version).bind fun buff =>
  (setIdx buff (1 + offset) cnx.Flags).bind fun buff =>
  (setIdx buff (2 + offset) (Byte.ofNat (cnx.KeepAlive.val >>> 8))).bind fun buff =>
  (setIdx buff (3 + offset) (Byte.ofNat (cnx.KeepAlive.val &&& 0xff))).bind fun buff =>
  let offset := offset + 4
  (putBytes buff offset cnx.ClientId).bind fun (buff, n) =>
  let offset := offset + n
  (if cnx.isWillFlag then
    (putBytes buff offset cnx.WillTopic).bind fun (buff, n) =>
    let offset := offset + n
    (putBytes buff offset cnx.WillMsg).bind fun (buff, n) =>
    .ok (buff, offset + n)
   else .ok (buff, offset)).bind fun (buff, offset) =>
  (if cnx.isUserFlag then
    (putBytes buff offset cnx.Username).bind fun (buff, n) => .ok (buff, offset + n)
   else .ok (buff, offset)).bind fun (buff, offset) =>
  if cnx.isPasswordFlag then
    (putBytes buff offset cnx.Password).bind fun (buff, _) => .ok buff
  else .ok buff

/-- The loop `for getByte(dump)&0b1000000 != 0 {}` of `NewConnect`: one `getByte` per
test, by recursion on the unread bytes. Returns the buffer after the loop. -/
def skipRL : List Byte → Res (List Byte)
  | [] => .panic
  | v :: rest => if v.val &&& 0b1000000 ≠ 0 then skipRL rest else .ok rest

/-- `NewConnect`. -/
def NewConnect (buff : List Byte) : Res ConnectPacket :=
  (getByte buff).bind fun (_, dump) =>
  (skipRL dump).bind fun dump =>
  (decodeString dump).bind fun (protocolName, dump) =>
  (getByte dump).bind fun (version, dump) =>
  (getByte dump).bind fun (flags, dump) =>
  (getByte dump).bind fun (hi, dump) =>
  (getByte dump).bind fun (lo, dump) =>
  let keepAlive := u16 ((u16 (hi.val <<< 8)).val ||| lo.val)
  (decodeString dump).bind fun (clientId, dump) =>
  let cnxMsg : ConnectPacket :=
    { ProtocolName := protocolName, Version := version, Flags := flags,
      KeepAlive := keepAlive, ClientId := clientId,
      Username := [], Password := [], WillTopic := [], WillMsg := [] }
  (if cnxMsg.isWillFlag then
    (decodeString dump).bind fun (willTopic, dump) =>
    (decodeString dump).bind fun (willMsg, dump) =>
    .ok ({ cnxMsg with WillTopic := willTopic, WillMsg := willMsg }, dump)
   else .ok (cnxMsg, dump)).bind fun (cnxMsg, dump) =>
  (if cnxMsg.isUserFlag then
    (decodeString dump).bind fun (username, dump) =>
    .ok ({ cnxMsg with Username := username }, dump)
   else .ok (cnxMsg, dump)).bind fun (cnxMsg, dump) =>
  if cnxMsg.isPasswordFlag then
    (decodeString dump).bind fun (password, _) =>
    .ok { cnxMsg with Password := password }
  else .ok cnxMsg

/-! ## SUBSCRIBE and PUBLISH -/

/-- The loop `for payload[i-1]&0b1000000 != 0 { i++ }` shared by `NewSubscribe` and
`NewPublish`. Returns the final `i`. -/
def skipIdx : Nat → List Byte → Nat → Res Nat
  | fuel, payload, i =>
    (index payload (i - 1)).bind fun v =>
    if v.val &&& 0b1000000 ≠ 0 then
      match fuel with
      | 0 => .outOfFuel
      | fuel + 1 => skipIdx fuel payload (i + 1)
    else .ok i

/-- The loop `for i < l { ... i += 3 + tl }` of `NewSubscribe`. -/
def filterLoop : Nat → List Byte → Nat → List TopicFilter → Res (List TopicFilter)
  | fuel, payload, i, filters =>
    if i < payload.length then
      match fuel with
      | 0 => .outOfFuel
      | fuel + 1 =>
        (index payload i).bind fun b0 =>
        (index payload (i + 1)).bind fun b1 =>
        let tl := (b0.val <<< 8) + b1.val
        (slice payload (i + 2) (i + 2 + tl)).bind fun t =>
        (index payload (i + 2 + tl)).bind fun q =>
        filterLoop fuel payload (i + 3 + tl) (filters ++ [{ Name := t, QoS := q }])
    else .ok filters

/-- `NewSubscribe`. Both loops advance an index that an out-of-range read stops at
`len(payload)`, so `len(payload)` iterations always suffice. -/
def NewSubscribe (payload : List Byte) : Res SubscribePacket :=
  (skipIdx payload.length payload 2).bind fun i =>
  (index payload i).bind fun hi =>
  (index payload (i + 1)).bind fun lo =>
  let id := u16 ((u16 (hi.val <<< 8)).val + lo.val)
  let i := i + 2
  (filterLoop payload.length payload i []).bind fun filters =>
  .ok { Id := id, TopicFilters := filters }

/-- `NewPublish`. -/
def NewPublish (buff : List Byte) : Res PublishPacket :=
  (skipIdx buff.length buff 2).bind fun i =>
  (index buff i).bind fun b0 =>
  (index buff (i + 1)).bind fun b1 =>
  let tl := (b0.val <<< 8) + b1.val
  (slice buff (i + 2) (i + 2 + tl)).bind fun topic =>
  let i := i + (2 + tl)
  (slice buff i buff.length).bind fun payload =>
  .ok { Topic := topic, Payload := payload }

/-! ## Message types -/

/-- Modelled from the spec: the declaration of the type `MsgType` is not in `packet.go`;
`DecodeMsgType` converts a `byte` to it, so it is a numeric type that holds every
nibble, and it is embedded as a natural number. -/
abbrev MsgType := Nat

/-- Modelled from the spec: the constants `CONNECT` … `DISCONNECT` are used but not
declared in `packet.go`; §4.6 gives the 14 control-packet type codes CONNECT=1 …
DISCONNECT=14, in the order of the MQTT 3.1.1 taxonomy that `msgTypeLookup` lists. -/
def CONNECT : MsgType := 1

/-- Modelled from the spec: see `CONNECT`. -/
def CONNACK : MsgType := 2

/-- Modelled from the spec: see `CONNECT`. -/
def PUBLISH : MsgType := 3

/-- Modelled from the spec: see `CONNECT`. -/
def PUBACK : MsgType := 4

/-- Modelled from the spec: see `CONNECT`. -/
def PUBREC : MsgType := 5

/-- Modelled from the spec: see `CONNECT`. -/
def PUBREL : MsgType := 6

/-- Modelled from the spec: see `CONNECT`. -/
def PUBCOMP : MsgType := 7

/-- Modelled from the spec: see `CONNECT`. -/
def SUBSCRIBE : MsgType := 8

/-- Modelled from the spec: see `CONNECT`. -/
def SUBACK : MsgType := 9

/-- Modelled from the spec: see `CONNECT`. -/
def UNSUBSCRIBE : MsgType := 10

/-- Modelled from the spec: see `CONNECT`. -/
def UNSUBACK : MsgType := 11

/-- Modelled from the spec: see `CONNECT`. -/
def PINGREQ : MsgType := 12

/-- Modelled from the spec: see `CONNECT`. -/
def PINGRESP : MsgType := 13

/-- Modelled from the spec: see `CONNECT`. -/
def DISCONNECT : MsgType := 14

/-- `DecodeMsgType`: `mType := (header & 0xF0) >> 4; return MsgType(mType)`. -/
def DecodeMsgType (header : Byte) : MsgType :=
  (Byte.ofNat ((Byte.ofNat (header.val &&& 0xF0)).val >>> 4)).val

/-- The map `msgTypeLookup`, as the lookup `msgTypeLookup[msgType]` with its `ok` flag. -/
def msgTypeLookup (msgType : MsgType) : Option String :=
  if msgType = CONNECT then some "CONNECT"
  else if msgType = CONNACK then some "CONNACK"
  else if msgType = PUBLISH then some "PUBLISH"
  else if msgType = PUBACK then some "PUBACK"
  else if msgType = PUBREC then some "PUBREC"
  else if msgType = PUBREL then some "PUBREL"
  else if msgType = PUBCOMP then some "PUBCOMP"
  else if msgType = SUBSCRIBE then some "SUBSCRIBE"
  else if msgType = SUBACK then some "SUBACK"
  else if msgType = UNSUBSCRIBE then some "UNSUBSCRIBE"
  else if msgType = UNSUBACK then some "UNSUBACK"
  else if msgType = PINGREQ then some "PINGREQ"
  else if msgType = PINGRESP then some "PINGRESP"
  else if msgType = DISCONNECT then some "DISCONNECT"
  else none

/-- `MsgTypeName`: panics when the type is not a key of `msgTypeLookup`. -/
def MsgTypeName (msgType : MsgType) : Res String :=
  match msgTypeLookup msgType with
  | some name => .ok name
  | none => .panic

/-! ## Specification-level definitions -/

/-- Decoder of the Remaining Length field in the words of the specification (§4.1), not
taken from the source: accumulate the low 7 bits of each byte at increasing 7-bit shifts
and stop at the first byte whose top bit is clear. The accumulator starts at 0, which is
also the value on an input that ends before such a byte. -/
def specDecodeVarInt : List Byte → Nat
  | [] => 0
  | v :: rest =>
    (v.val &&& 0x7f) + (if v.val &&& 0x80 ≠ 0 then 128 * specDecodeVarInt rest else 0)

/-- Length-prefixed string in the words of the specification (§4.2): `len(s)` as a
2-byte big-endian unsigned integer, then the bytes of `s`. -/
def specEncodeString (s : List Byte) : List Byte :=
  Byte.ofNat (s.length / 256) :: Byte.ofNat (s.length % 256) :: s

/-- The Remaining Length field of a positive length: the bytes `getRL` counts. -/
def remainingLength (n : Nat) : List Byte :=
  match getRL n with
  | .ok (l, b) => b.take l
  | _ => []

/-- Wire layout of a CONNECT packet in the words of the specification (§4.3, §6): the
byte `0x10`, the Remaining Length of everything after it, protocol name, version, flags,
keep-alive high byte then low byte, client id, then will topic and will message if flag
bit 2 is set, username if flag bit 7 is set, password if flag bit 6 is set. -/
def specConnectLayout (p : ConnectPacket) : List Byte :=
  [0x10] ++ remainingLength p.size ++ specEncodeString p.ProtocolName
    ++ [p.Version, p.Flags, Byte.ofNat (p.KeepAlive.val / 256), Byte.ofNat (p.KeepAlive.val % 256)]
    ++ specEncodeString p.ClientId
    ++ (if p.Flags.val.testBit 2 then
          specEncodeString p.WillTopic ++ specEncodeString p.WillMsg else [])
    ++ (if p.Flags.val.testBit 7 then specEncodeString p.Username else [])
    ++ (if p.Flags.val.testBit 6 then specEncodeString p.Password else [])

/-- One SUBSCRIBE filter on the wire: length-prefixed name, then the QoS byte. -/
def specFilterBytes (f : TopicFilter) : List Byte :=
  specEncodeString f.Name ++ [f.QoS]

/-- The SUBSCRIBE buffer of the specification (§4.4, §6): header byte, Remaining Length
of `2 + Σ (3 + len(name))`, packet identifier big-endian, then the filters in order. -/
def specSubscribeWire (h : Byte) (id : UInt16') (filters : List TopicFilter) : List Byte :=
  [h] ++ remainingLength (2 + (filters.map fun f => 3 + f.Name.length).sum)
    ++ [Byte.ofNat (id.val / 256), Byte.ofNat (id.val % 256)]
    ++ (filters.map specFilterBytes).flatten

/-- The PUBLISH buffer of the specification (§4.5, §6): header byte, Remaining Length
of `2 + len(topic) + len(payload)`, length-prefixed topic, then the payload. -/
def specPublishWire (h : Byte) (topic payload : List Byte) : List Byte :=
  [h] ++ remainingLength (2 + topic.length + payload.length)
    ++ specEncodeString topic ++ payload

/-- A Remaining Length field that is well formed with `k` bytes at the head of `bs`:
`k - 1` bytes with the top bit set, then one byte with the top bit clear (§4.1). -/
def specRLField (bs : List Byte) (k : Nat) : Prop :=
  1 ≤ k ∧ k ≤ 4 ∧ k ≤ bs.length ∧
    ∀ j, j < k → (((bs.getD j 0).val &&& 0x80 ≠ 0) ↔ j < k - 1)

/-! ## Concrete packets -/


/-- The bytes of the string "MQTT". -/
def mqttName : List Byte := [0x4d, 0x51, 0x54, 0x54]

/-- A CONNECT packet with a 2-byte client id and no credentials. -/
def connectSmall : ConnectPacket :=
  { ProtocolName := mqttName, Version := 4, Flags := 2, KeepAlive := 60,
    ClientId := [0x61, 0x62], Username := [], Password := [], WillTopic := [],
    WillMsg := [] }

/-- A CONNECT packet with a 40-byte client id whose 4-byte username and password are set
through the setters: its Remaining Length is 64. -/
def connect64 : ConnectPacket :=
  (({ ProtocolName := mqttName, Version := 4, Flags := 2, KeepAlive := 60,
      ClientId := List.replicate 40 0x61, Username := [], Password := [], WillTopic := [],
      WillMsg := [] } : ConnectPacket).SetUsername [0x75, 0x73, 0x65, 0x72]).SetPassword
    [0x70, 0x61, 0x73, 0x73]

/-- A CONNECT packet with a 116-byte client id and no credentials: its Remaining Length
is 128. -/
def connect128 : ConnectPacket :=
  { ProtocolName := mqttName, Version := 4, Flags := 2, KeepAlive := 60,
    ClientId := List.replicate 116 0x61, Username := [], Password := [], WillTopic := [],
    WillMsg := [] }

/-- The two filters ("a/b", 0), ("c/d", 1). -/
def filtersAbCd : List TopicFilter :=
  [{ Name := [0x61, 0x2f, 0x62], QoS := 0 }, { Name := [0x63, 0x2f, 0x64], QoS := 1 }]

/-- One filter with a 59-byte name and QoS 1: with the 2-byte identifier the Remaining
Length is 64. -/
def filters64 : List TopicFilter :=
  [{ Name := List.replicate 59 0x61, QoS := 1 }]

/-- A SUBSCRIBE buffer of 68 bytes with Remaining Length 66: identifier 0, one complete
filter (empty name, QoS 0), then 61 bytes that start with the length prefix 0x0100. -/
def subscribeTrailing : List Byte :=
  [0x82, 0x42, 0x00, 0x00] ++ specFilterBytes { Name := [], QoS := 0 }
    ++ ([0x01, 0x00, 57] ++ List.replicate 57 0x61 ++ [2])

/-- The two filters that `NewSubscribe` returns on `subscribeTrailing`. -/
def filtersTrailing : List TopicFilter :=
  [{ Name := [], QoS := 1 }, { Name := List.replicate 57 0x61, QoS := 2 }]

/-- A buffer whose Remaining Length field is the single byte 0x40. -/
def skipOneByte : List Byte := [0x82, 0x40, 0x01, 0x02, 0x03]

/-- A buffer whose Remaining Length field is the two bytes 0x80 0x01. -/
def skipTwoBytes : List Byte := [0x82, 0x80, 0x01, 0x01, 0x00, 0x00, 0x05]

/-- The packet `connectSmall` after `SetUsername("u")` and `SetPassword("p")`. -/
def connectCreds : ConnectPacket :=
  (connectSmall.SetUsername [0x75]).SetPassword [0x70]

/-- A buffer of `GetBytes` in the making: its length is fixed and byte 0 is `0x10`. -/
def Shaped (N : Nat) (buff : List Byte) : Prop :=
  buff.length = N ∧ buff[0]? = some 0x10

/-- A run that returns a buffer of `GetBytes` in the making. -/
def Good (N : Nat) (r : Res (List Byte)) : Prop :=
  ∃ buff, r = .ok buff ∧ Shaped N buff

/-! ## Basic facts -/

@[simp] theorem Res.bind_ok {α β : Type} (a : α) (f : α → Res β) :
    (Res.ok a).bind f = f a := rfl

@[simp] theorem Res.bind_panic {α β : Type} (f : α → Res β) :
    (Res.panic : Res α).bind f = .panic := rfl

theorem Res.bind_assoc {α β γ : Type} (r : Res α) (f : α → Res β) (g : β → Res γ) :
    (r.bind f).bind g = r.bind fun a => (f a).bind g := by
  cases r <;> rfl

@[simp] theorem Res.bind_outOfFuel {α β : Type} (f : α → Res β) :
    (Res.outOfFuel : Res α).bind f = .outOfFuel := rfl

@[simp] theorem Byte.ofNat_val (n : Nat) : (Byte.ofNat n).val = n % 256 := rfl

theorem setIdx_ok (buff : List Byte) (i : Nat) (v : Byte) (h : i < buff.length) :
    setIdx buff i v = .ok (buff.set i v) := by
  simp [setIdx, h]

theorem setIdx_panic (buff : List Byte) (i : Nat) (v : Byte) (h : buff.length ≤ i) :
    setIdx buff i v = .panic := by
  simp [setIdx, Nat.not_lt.mpr h]

theorem index_set_self (buff : List Byte) (i : Nat) (v : Byte) (h : i < buff.length) :
    index (buff.set i v) i = .ok v := by
  simp [index, h]

theorem or_128_of_lt (x : Nat) (h : x < 128) : x ||| 0x80 = x + 128 := by
  interval_cases x <;> rfl

/-! ## `getRL` -/

theorem getRLLoop_zero (fuel l : Nat) (b : List Byte) :
    getRLLoop fuel 0 l b = .ok (l, b) := by
  cases fuel <;> simp [getRLLoop]

/-- One iteration of the loop of `getRL` that stays inside the buffer. -/
theorem getRLLoop_step (fuel s l : Nat) (b : List Byte) (hs : 0 < s) (hl : l < b.length) :
    getRLLoop (fuel + 1) s l b =
      getRLLoop fuel (s / 128) (l + 1)
        (b.set l (Byte.ofNat (if 0 < s / 128 then s % 128 + 128 else s % 128))) := by
  have hand : s &&& 0x7f = s % 128 := Nat.and_pow_two_sub_one_eq_mod s 7
  have hshift : s >>> 7 = s / 128 := Nat.shiftRight_eq_div_pow s 7
  have hlt : s % 128 < 128 := Nat.mod_lt _ (by decide)
  rw [getRLLoop]
  simp only [hs, gt_iff_lt, if_true, hand, hshift, setIdx_ok b l _ hl, Res.bind_ok]
  by_cases h : 0 < s / 128
  · have hm : s % 128 % 256 = s % 128 := Nat.mod_eq_of_lt (by omega)
    simp only [h, if_true, index_set_self b l _ hl, Res.bind_ok, Byte.ofNat_val, hm,
      or_128_of_lt _ hlt]
    rw [setIdx_ok _ _ _ (by simpa using hl)]
    simp
  · simp [h]

/-- An iteration of the loop of `getRL` at an index outside the buffer panics. -/
theorem getRLLoop_panic (fuel s l : Nat) (b : List Byte) (hs : 0 < s) (hl : b.length ≤ l) :
    getRLLoop (fuel + 1) s l b = .panic := by
  rw [getRLLoop]
  simp [hs, setIdx_panic b l _ hl]

/-- The loop of `getRL` does not depend on the fuel once the fuel is at least `s`. -/
theorem getRLLoop_fuel_succ (fuel : Nat) : ∀ (s l : Nat) (b : List Byte), s ≤ fuel →
    getRLLoop (fuel + 1) s l b = getRLLoop fuel s l b := by
  induction fuel with
  | zero =>
    intro s l b h
    have : s = 0 := by omega
    subst this
    simp [getRLLoop_zero]
  | succ f ih =>
    intro s l b h
    by_cases hs : 0 < s
    · by_cases hl : l < b.length
      · rw [getRLLoop_step _ _ _ _ hs hl, getRLLoop_step _ _ _ _ hs hl]
        exact ih _ _ _ (by omega)
      · rw [getRLLoop_panic _ _ _ _ hs (by omega), getRLLoop_panic _ _ _ _ hs (by omega)]
    · have : s = 0 := by omega
      subst this
      simp [getRLLoop_zero]

theorem getRLLoop_fuel_add (k fuel s l : Nat) (b : List Byte) (h : s ≤ fuel) :
    getRLLoop (fuel + k) s l b = getRLLoop fuel s l b := by
  induction k with
  | zero => rfl
  | succ k ih =>
    rw [← Nat.add_assoc, getRLLoop_fuel_succ _ _ _ _ (by omega), ih]

/-- Closed form of `getRL` on every non-negative argument. -/
theorem getRL_eq (n : Nat) :
    getRL n =
      if n = 0 then .ok (0, [0, 0, 0, 0])
      else if n < 128 then .ok (1, [Byte.ofNat n, 0, 0, 0])
      else if n < 16384 then
        .ok (2, [Byte.ofNat (n % 128 + 128), Byte.ofNat (n / 128), 0, 0])
      else if n < 2097152 then
        .ok (3, [Byte.ofNat (n % 128 + 128), Byte.ofNat (n / 128 % 128 + 128),
                 Byte.ofNat (n / 16384), 0])
      else if n < 268435456 then
        .ok (4, [Byte.ofNat (n % 128 + 128), Byte.ofNat (n / 128 % 128 + 128),
                 Byte.ofNat (n / 16384 % 128 + 128), Byte.ofNat (n / 2097152)])
      else .panic := by
  unfold getRL
  rw [← getRLLoop_fuel_add 5 n n 0 _ (Nat.le_refl n)]
  show getRLLoop (n + 4 + 1) n 0 [0, 0, 0, 0] = _
  by_cases h0 : n = 0
  · subst h0; simp [getRLLoop_zero]
  rw [getRLLoop_step _ _ _ _ (by omega) (by simp), if_neg h0]
  by_cases h1 : n < 128
  · have hd : n / 128 = 0 := by omega
    have hm : n % 128 = n := by omega
    simp [h1, hd, hm, getRLLoop_zero]
  rw [getRLLoop_step _ _ _ _ (by omega) (by simp), if_neg h1, if_pos (by omega)]
  have e2 : n / 128 / 128 = n / 16384 := by omega
  by_cases h2 : n < 16384
  · have hd : n / 16384 = 0 := by omega
    have hm : n / 128 % 128 = n / 128 := by omega
    simp [h2, e2, hd, hm, getRLLoop_zero]
  rw [getRLLoop_step _ _ _ _ (by omega) (by simp), if_neg h2, if_pos (by omega), e2]
  have e3 : n / 16384 / 128 = n / 2097152 := by omega
  by_cases h3 : n < 2097152
  · have hd : n / 2097152 = 0 := by omega
    have hm : n / 16384 % 128 = n / 16384 := by omega
    simp [h3, e3, hd, hm, getRLLoop_zero]
  rw [getRLLoop_step _ _ _ _ (by omega) (by simp), if_neg h3, if_pos (by omega), e3]
  have e4 : n / 2097152 / 128 = n / 268435456 := by omega
  by_cases h4 : n < 268435456
  · have hd : n / 268435456 = 0 := by omega
    have hm : n / 2097152 % 128 = n / 2097152 := by omega
    simp [h4, e4, hd, hm, getRLLoop_zero]
  rw [getRLLoop_panic _ _ _ _ (by omega) (by simp), if_neg h4]

theorem and_7f_add_128 (x : Nat) (h : x < 128) : ((x + 128) % 256) &&& 0x7f = x := by
  interval_cases x <;> rfl

theorem and_80_add_128 (x : Nat) (h : x < 128) : ((x + 128) % 256) &&& 0x80 = 0x80 := by
  interval_cases x <;> rfl

theorem and_7f_of_lt (x : Nat) (h : x < 128) : (x % 256) &&& 0x7f = x := by
  interval_cases x <;> rfl

theorem and_80_of_lt (x : Nat) (h : x < 128) : (x % 256) &&& 0x80 = 0 := by
  interval_cases x <;> rfl

/-- C5: for every n with 0 ≤ n ≤ 2^28-1, getRL(n) returns (l, b) such that the sum over
i < l of (b[i] & 0x7f) * 128^i equals n, and for every i < l the top bit (0x80) of b[i] is
set exactly when i < l-1; decoding the first l bytes by the Remaining Length algorithm
yields n. -/
theorem getRL_value (n : Nat) (hn : n ≤ 2 ^ 28 - 1) :
    ∃ l b, getRL n = .ok (l, b) ∧
      Finset.sum (Finset.range l) (fun i => ((b.getD i 0).val &&& 0x7f) * 128 ^ i) = n ∧
      (∀ i, i < l → (((b.getD i 0).val &&& 0x80 ≠ 0) ↔ i < l - 1)) ∧
      specDecodeVarInt (b.take l) = n := by
  have hn' : n < 268435456 := by norm_num at hn; omega
  rw [getRL_eq]
  by_cases h0 : n = 0
  · subst h0
    exact ⟨0, _, rfl, by simp, by simp, by simp [specDecodeVarInt]⟩
  rw [if_neg h0]
  by_cases h1 : n < 128
  · rw [if_pos h1]
    refine ⟨1, _, rfl, ?_, ?_, ?_⟩
    · simp [and_7f_of_lt n h1]
    · intro i hi
      have : i = 0 := by omega
      subst this
      simp [and_80_of_lt n h1]
    · simp [specDecodeVarInt, and_7f_of_lt n h1, and_80_of_lt n h1]
  rw [if_neg h1]
  have m0 : n % 128 < 128 := Nat.mod_lt _ (by decide)
  by_cases h2 : n < 16384
  · rw [if_pos h2]
    have q1 : n / 128 < 128 := by omega
    refine ⟨2, _, rfl, ?_, ?_, ?_⟩
    · simp [Finset.sum_range_succ, and_7f_add_128 _ m0, and_7f_of_lt _ q1]
      omega
    · intro i hi
      have : i = 0 ∨ i = 1 := by omega
      rcases this with rfl | rfl <;>
        simp [and_80_add_128 _ m0, and_80_of_lt _ q1]
    · simp [specDecodeVarInt, and_7f_add_128 _ m0, and_7f_of_lt _ q1, and_80_add_128 _ m0,
        and_80_of_lt _ q1]
      omega
  rw [if_neg h2]
  have m1 : n / 128 % 128 < 128 := Nat.mod_lt _ (by decide)
  by_cases h3 : n < 2097152
  · rw [if_pos h3]
    have q2 : n / 16384 < 128 := by omega
    refine ⟨3, _, rfl, ?_, ?_, ?_⟩
    · simp [Finset.sum_range_succ, and_7f_add_128 _ m0, and_7f_add_128 _ m1,
        and_7f_of_lt _ q2]
      omega
    · intro i hi
      have : i = 0 ∨ i = 1 ∨ i = 2 := by omega
      rcases this with rfl | rfl | rfl <;>
        simp [and_80_add_128 _ m0, and_80_add_128 _ m1, and_80_of_lt _ q2]
    · simp [specDecodeVarInt, and_7f_add_128 _ m0, and_7f_add_128 _ m1, and_7f_of_lt _ q2,
        and_80_add_128 _ m0, and_80_add_128 _ m1, and_80_of_lt _ q2]
      omega
  rw [if_neg h3, if_pos hn']
  have m2 : n / 16384 % 128 < 128 := Nat.mod_lt _ (by decide)
  have q3 : n / 2097152 < 128 := by omega
  refine ⟨4, _, rfl, ?_, ?_, ?_⟩
  · simp [Finset.sum_range_succ, and_7f_add_128 _ m0, and_7f_add_128 _ m1,
      and_7f_add_128 _ m2, and_7f_of_lt _ q3]
    omega
  · intro i hi
    have : i = 0 ∨ i = 1 ∨ i = 2 ∨ i = 3 := by omega
    rcases this with rfl | rfl | rfl | rfl <;>
      simp [and_80_add_128 _ m0, and_80_add_128 _ m1, and_80_add_128 _ m2,
        and_80_of_lt _ q3]
  · simp [specDecodeVarInt, and_7f_add_128 _ m0, and_7f_add_128 _ m1, and_7f_add_128 _ m2,
      and_7f_of_lt _ q3, and_80_add_128 _ m0, and_80_add_128 _ m1, and_80_add_128 _ m2,
      and_80_of_lt _ q3]
    omega

theorem getRL_value_witness :
    (300 ≤ 2 ^ 28 - 1) ∧
    ∃ l b, getRL 300 = .ok (l, b) ∧
      Finset.sum (Finset.range l) (fun i => ((b.getD i 0).val &&& 0x7f) * 128 ^ i) = 300 ∧
      (∀ i, i < l → (((b.getD i 0).val &&& 0x80 ≠ 0) ↔ i < l - 1)) ∧
      specDecodeVarInt (b.take l) = 300 :=
  ⟨by norm_num, getRL_value 300 (by norm_num)⟩

/-- C6, as stated, fails: getRL(0) does not return byte count 1 with a first byte equal
to 0x00. -/
theorem getRL_zero_not_one_byte :
    ¬ ∃ b : List Byte, getRL 0 = .ok (1, b) ∧ b[0]? = some 0x00 := by
  rintro ⟨b, h, _⟩
  have h0 : getRL 0 = .ok (0, [0, 0, 0, 0]) := by decide
  rw [h0] at h
  cases h

/-- C6 (amended): getRL(0) returns byte count 0 and a first byte equal to 0x00; the loop
`for s > 0` is not entered for 0, no byte is counted and the buffer is left as four zero
bytes. -/
theorem getRL_zero :
    ∃ b : List Byte, getRL 0 = .ok (0, b) ∧ b[0]? = some 0x00 ∧ b = [0, 0, 0, 0] :=
  ⟨[0, 0, 0, 0], by decide, rfl, rfl⟩

/-- The size that `GetBytes` passes to `getRL`, its only caller, is at least 8, so
`getRL` is never called with 0 and always counts at least one byte there. -/
theorem size_ge_eight (p : ConnectPacket) : 8 ≤ p.size := by
  simp only [ConnectPacket.size]
  split <;> split <;> split <;> omega

/-- C7: for every n with 1 ≤ n ≤ 2^28-1, the byte count l returned by getRL(n) is the
least k ≥ 1 with n < 128^k, hence 1 for n ≤ 127, 2 for 128..16383, 3 for 16384..2097151
and 4 for 2097152..268435455, and never more than 4. -/
theorem getRL_byteCount (n : Nat) (h1 : 1 ≤ n) (hn : n ≤ 2 ^ 28 - 1) :
    ∃ l b, getRL n = .ok (l, b) ∧
      1 ≤ l ∧ n < 128 ^ l ∧ (∀ k, 1 ≤ k → n < 128 ^ k → l ≤ k) ∧ l ≤ 4 ∧
      (n ≤ 127 → l = 1) ∧ (128 ≤ n → n ≤ 16383 → l = 2) ∧
      (16384 ≤ n → n ≤ 2097151 → l = 3) ∧ (2097152 ≤ n → l = 4) := by
  have hn' : n < 268435456 := by norm_num at hn; omega
  have least : ∀ l, 128 ^ (l - 1) ≤ n → ∀ k, 1 ≤ k → n < 128 ^ k → l ≤ k := by
    intro l hl k _ hk
    by_contra hc
    have : 128 ^ k ≤ 128 ^ (l - 1) := Nat.pow_le_pow_right (by decide) (by omega)
    omega
  rw [getRL_eq, if_neg (by omega)]
  by_cases c1 : n < 128
  · rw [if_pos c1]
    exact ⟨1, _, rfl, by omega, by simpa using c1, least 1 (by simpa using h1), by omega,
      by omega, by omega, by omega, by omega⟩
  rw [if_neg c1]
  by_cases c2 : n < 16384
  · rw [if_pos c2]
    exact ⟨2, _, rfl, by omega, by norm_num; omega, least 2 (by norm_num; omega), by omega,
      by omega, by omega, by omega, by omega⟩
  rw [if_neg c2]
  by_cases c3 : n < 2097152
  · rw [if_pos c3]
    exact ⟨3, _, rfl, by omega, by norm_num; omega, least 3 (by norm_num; omega), by omega,
      by omega, by omega, by omega, by omega⟩
  rw [if_neg c3, if_pos hn']
  exact ⟨4, _, rfl, by omega, by norm_num; omega, least 4 (by norm_num; omega), by omega,
    by omega, by omega, by omega, by omega⟩

theorem getRL_byteCount_witness :
    (1 ≤ 16384) ∧ (16384 ≤ 2 ^ 28 - 1) ∧
    ∃ l b, getRL 16384 = .ok (l, b) ∧
      1 ≤ l ∧ 16384 < 128 ^ l ∧ (∀ k, 1 ≤ k → 16384 < 128 ^ k → l ≤ k) ∧ l ≤ 4 ∧
      (16384 ≤ 127 → l = 1) ∧ (128 ≤ 16384 → 16384 ≤ 16383 → l = 2) ∧
      (16384 ≤ 16384 → 16384 ≤ 2097151 → l = 3) ∧ (2097152 ≤ 16384 → l = 4) :=
  ⟨by norm_num, by norm_num, getRL_byteCount 16384 (by norm_num) (by norm_num)⟩

/-! ## Setters -/

theorem flags_after_setters : ∀ f : Fin 256,
    (((f.val ||| 0x80) % 256 ||| 0x40) % 256) &&& 0x80 = 0x80 ∧
    (((f.val ||| 0x80) % 256 ||| 0x40) % 256) &&& 0x40 = 0x40 ∧
    (((f.val ||| 0x80) % 256 ||| 0x40) % 256) &&& 0x3f = f.val &&& 0x3f ∧
    (((f.val ||| 0x80) % 256 ||| 0x40) % 256) = f.val ||| 0xc0 := by
  intro f
  have h := f.isLt
  generalize f.val = x at h
  interval_cases x <;> decide

/-- C4: for every ConnectPacket p and strings u, w, after SetUsername(u) followed by
SetPassword(w) the packet has Username = u, Password = w, flag bits 7 and 6 both set, and
every other bit of Flags (including the will flag, bit 2) and every other field
(ProtocolName, Version, KeepAlive, ClientId, WillTopic, WillMsg) unchanged from p. -/
theorem setters_flags_invariant (p : ConnectPacket) (u w : List Byte) :
    ((p.SetUsername u).SetPassword w).Username = u ∧
    ((p.SetUsername u).SetPassword w).Password = w ∧
    ((p.SetUsername u).SetPassword w).isUserFlag = true ∧
    ((p.SetUsername u).SetPassword w).isPasswordFlag = true ∧
    ((p.SetUsername u).SetPassword w).Flags.val.testBit 7 = true ∧
    ((p.SetUsername u).SetPassword w).Flags.val.testBit 6 = true ∧
    (∀ i, i ≠ 7 → i ≠ 6 →
      ((p.SetUsername u).SetPassword w).Flags.val.testBit i = p.Flags.val.testBit i) ∧
    ((p.SetUsername u).SetPassword w).isWillFlag = p.isWillFlag ∧
    ((p.SetUsername u).SetPassword w).ProtocolName = p.ProtocolName ∧
    ((p.SetUsername u).SetPassword w).Version = p.Version ∧
    ((p.SetUsername u).SetPassword w).KeepAlive = p.KeepAlive ∧
    ((p.SetUsername u).SetPassword w).ClientId = p.ClientId ∧
    ((p.SetUsername u).SetPassword w).WillTopic = p.WillTopic ∧
    ((p.SetUsername u).SetPassword w).WillMsg = p.WillMsg := by
  obtain ⟨h80, h40, _, hor⟩ := flags_after_setters p.Flags
  have hF : ((p.SetUsername u).SetPassword w).Flags.val = p.Flags.val ||| 0xc0 := hor
  have hc0 : ∀ i, i ≠ 7 → i ≠ 6 → Nat.testBit 0xc0 i = false := by
    intro i h7 h6
    by_cases hi : i < 8
    · interval_cases i <;> simp_all <;> rfl
    · exact Nat.testBit_lt_two_pow (lt_of_lt_of_le (by norm_num : 0xc0 < 2 ^ 8)
        (Nat.pow_le_pow_right (by decide) (by omega)))
  refine ⟨rfl, rfl, ?_, ?_, ?_, ?_, ?_, ?_, rfl, rfl, rfl, rfl, rfl, rfl⟩
  · simp only [ConnectPacket.isUserFlag, hF]
    have : (p.Flags.val ||| 0xc0) &&& 0x80 = 0x80 := by rw [← hor]; exact h80
    simp [this]
  · simp only [ConnectPacket.isPasswordFlag, hF]
    have : (p.Flags.val ||| 0xc0) &&& 0x40 = 0x40 := by rw [← hor]; exact h40
    simp [this]
  · rw [hF, Nat.testBit_or]
    have : Nat.testBit 0xc0 7 = true := by decide
    simp [this]
  · rw [hF, Nat.testBit_or]
    have : Nat.testBit 0xc0 6 = true := by decide
    simp [this]
  · intro i h7 h6
    rw [hF, Nat.testBit_or, hc0 i h7 h6]
    simp
  · simp only [ConnectPacket.isWillFlag, hF]
    have : (p.Flags.val ||| 0xc0) &&& 0x04 = p.Flags.val &&& 0x04 := by
      have := p.Flags.isLt
      generalize p.Flags.val = x at this
      interval_cases x <;> rfl
    rw [this]

/-! ## Length-prefixed strings -/

theorem be16_or (a b : Nat) (ha : a < 256) (hb : b < 256) :
    ((a <<< 8) % 65536 ||| b) % 65536 = a * 256 + b := by
  have h1 : a <<< 8 = 2 ^ 8 * a := by rw [Nat.shiftLeft_eq, Nat.mul_comm]
  have h2 : 2 ^ 8 * a % 65536 = 2 ^ 8 * a := Nat.mod_eq_of_lt (by norm_num; omega)
  rw [h1, h2, ← Nat.mul_add_lt_is_or (by norm_num; omega) a]
  norm_num
  omega

theorem len_hi (n : Nat) (h : n ≤ 65535) : (Byte.ofNat (n >>> 8)).val = n / 256 := by
  have : n >>> 8 = n / 256 := Nat.shiftRight_eq_div_pow n 8
  rw [Byte.ofNat_val, this]
  omega

theorem len_lo (n : Nat) : (Byte.ofNat (n &&& 0xff)).val = n % 256 := by
  have : n &&& 0xff = n % 256 := Nat.and_pow_two_sub_one_eq_mod n 8
  rw [Byte.ofNat_val, this]
  omega

/-- The length prefix written by `putBytes` reads back as the length. -/
theorem len_prefix_decodes (n : Nat) (h : n ≤ 65535) :
    (u16 ((u16 ((Byte.ofNat (n >>> 8)).val <<< 8)).val |||
      (Byte.ofNat (n &&& 0xff)).val)).val = n := by
  show (((Byte.ofNat (n >>> 8)).val <<< 8) % 65536 ||| (Byte.ofNat (n &&& 0xff)).val) % 65536
    = n
  rw [be16_or _ _ (Fin.isLt _) (Fin.isLt _), len_hi n h, len_lo n]
  omega

/-- `putBytes` on a buffer split at `pos`, with room for the whole string. -/
theorem putBytes_append (A D E s : List Byte) (x y : Byte) (h : D.length = s.length) :
    putBytes (A ++ x :: y :: (D ++ E)) A.length s =
      .ok (A ++ Byte.ofNat (s.length >>> 8) :: Byte.ofNat (s.length &&& 0xff) :: (s ++ E),
           2 + s.length) := by
  unfold putBytes
  dsimp only
  rw [setIdx_ok _ _ _ (by simp)]
  simp only [Res.bind_ok]
  rw [setIdx_ok _ _ _ (by simp)]
  simp only [Res.bind_ok]
  rw [if_pos (by simp)]
  congr 2
  simp only [copyAt, List.take_append_eq_append_take, List.drop_append_eq_append_drop,
    List.set_append_right _ _ (Nat.le_refl A.length), List.length_append, List.length_cons,
    List.length_set, Nat.sub_self, List.set_cons_zero,
    List.set_append_right _ _ (Nat.le_succ A.length), Nat.add_sub_cancel_left,
    List.set_cons_succ]
  have e1 : List.take (A.length + 2) A = A := List.take_of_length_le (by omega)
  have e2 : List.take (A.length + (D.length + E.length + 1 + 1) - (A.length + 2)) s = s :=
    List.take_of_length_le (by omega)
  have e3 : List.drop (A.length + 2 + s.length) A = [] := List.drop_of_length_le (by omega)
  have e4 : A.length + 2 + s.length - A.length = s.length + 1 + 1 := by omega
  have e5 : A.length.succ - A.length = 1 := by omega
  simp only [e1, e2, e3, e4, e5, List.set_cons_succ, List.set_cons_zero]
  simp [List.drop_left' h]

/-- `decodeString` on a length-prefixed string followed by anything. -/
theorem decodeString_append (s E : List Byte) (h : s.length ≤ 65535) :
    decodeString
        (Byte.ofNat (s.length >>> 8) :: Byte.ofNat (s.length &&& 0xff) :: (s ++ E)) =
      .ok (s, E) := by
  simp only [decodeString, getByte, Res.bind_ok, len_prefix_decodes _ h]
  simp

/-- A buffer with at least `pos + 2 + n` bytes splits at `pos`, `pos + 2` and
`pos + 2 + n`. -/
theorem split_at (b : List Byte) (pos n : Nat) (hb : pos + 2 + n ≤ b.length) :
    ∃ x y D, D.length = n ∧
      b = b.take pos ++ x :: y :: (D ++ b.drop (pos + 2 + n)) := by
  have hlen : (b.drop pos).length = b.length - pos := List.length_drop pos b
  match hd : b.drop pos with
  | [] => rw [hd] at hlen; simp at hlen; omega
  | [x] => rw [hd] at hlen; simp at hlen; omega
  | x :: y :: R =>
    rw [hd] at hlen
    simp at hlen
    refine ⟨x, y, R.take n, by simp; omega, ?_⟩
    have hR : R = b.drop (pos + 2) := by
      have : (b.drop pos).drop 2 = R := by rw [hd]; rfl
      rw [← this, List.drop_drop]
    have hE : b.drop (pos + 2 + n) = R.drop n := by
      rw [hR, List.drop_drop]
    rw [hE, List.take_append_drop, ← hd, List.take_append_drop]

/-- C8: for every string s of at most 65535 bytes (the empty string and a string of
exactly 65535 bytes included), every buffer b and position pos with
pos + 2 + len(s) ≤ len(b), putBytes(b, pos, s) returns 2 + len(s) and writes len(s) as 2
big-endian bytes at pos followed by the bytes of s, and decodeString on a reader
positioned over b[pos:] returns s having consumed exactly 2 + len(s) bytes. -/
theorem putBytes_decodeString_roundtrip (s b : List Byte) (pos : Nat)
    (hs : s.length ≤ 65535) (hb : pos + 2 + s.length ≤ b.length) :
    ∃ b' hi lo, putBytes b pos s = .ok (b', 2 + s.length) ∧
      b' = b.take pos ++ hi :: lo :: (s ++ b.drop (pos + 2 + s.length)) ∧
      hi.val * 256 + lo.val = s.length ∧
      decodeString (b'.drop pos) = .ok (s, b'.drop (pos + (2 + s.length))) := by
  obtain ⟨x, y, D, hD, hsplit⟩ := split_at b pos s.length hb
  have hA : (b.take pos).length = pos := by
    rw [List.length_take]; omega
  have hput := putBytes_append (b.take pos) D (b.drop (pos + 2 + s.length)) s x y hD
  rw [← hsplit, hA] at hput
  refine ⟨_, Byte.ofNat (s.length >>> 8), Byte.ofNat (s.length &&& 0xff), hput, rfl, ?_, ?_⟩
  · rw [len_hi _ hs, len_lo]
    omega
  · have h1 : ∀ T : List Byte, (b.take pos ++ T).drop pos = T := fun T =>
      List.drop_left' hA
    have h2 : ∀ T : List Byte, (b.take pos ++ T).drop (pos + (2 + s.length)) =
        T.drop (2 + s.length) := by
      intro T
      rw [← List.drop_drop, h1]
    rw [h1, h2, decodeString_append _ _ hs]
    have : 2 + s.length = s.length + 1 + 1 := by omega
    rw [this]
    simp

theorem putBytes_decodeString_roundtrip_witness :
    (([0x61, 0x62] : List Byte).length ≤ 65535) ∧
    (1 + 2 + ([0x61, 0x62] : List Byte).length ≤ ([9, 9, 9, 9, 9, 9] : List Byte).length) ∧
    ∃ b' hi lo, putBytes [9, 9, 9, 9, 9, 9] 1 [0x61, 0x62] =
        .ok (b', 2 + ([0x61, 0x62] : List Byte).length) ∧
      b' = ([9, 9, 9, 9, 9, 9] : List Byte).take 1 ++ hi :: lo :: ([0x61, 0x62] ++
        ([9, 9, 9, 9, 9, 9] : List Byte).drop (1 + 2 + ([0x61, 0x62] : List Byte).length)) ∧
      hi.val * 256 + lo.val = ([0x61, 0x62] : List Byte).length ∧
      decodeString (b'.drop 1) =
        .ok ([0x61, 0x62], b'.drop (1 + (2 + ([0x61, 0x62] : List Byte).length))) :=
  ⟨by decide, by decide,
    putBytes_decodeString_roundtrip [0x61, 0x62] [9, 9, 9, 9, 9, 9] 1 (by decide) (by decide)⟩

/-- C9 (the code departs from the claim): on a reader holding the bytes 00 05 61, which
declare a length of 5 with one byte left, decodeString returns the one-byte string
instead of failing; `bytes.Buffer.Next` hands back what is left. -/
theorem decodeString_truncated_returns :
    decodeString [0x00, 0x05, 0x61] = .ok ([0x61], []) ∧
    decodeString [0x00, 0x05, 0x61] ≠ .panic := by
  decide

/-! ## CONNECT encoding: size of the buffer -/

theorem setIdx_shaped (N : Nat) (buff : List Byte) (i : Nat) (v : Byte)
    (hb : Shaped N buff) (h0 : 0 < i) (hi : i < N) :
    ∃ buff', setIdx buff i v = .ok buff' ∧ Shaped N buff' := by
  obtain ⟨hlen, hhead⟩ := hb
  refine ⟨_, setIdx_ok buff i v (by omega), by simpa using hlen, ?_⟩
  rw [List.getElem?_set_ne (by omega)]
  exact hhead

theorem length_copyAt (dst : List Byte) (pos : Nat) (src : List Byte) (h : pos ≤ dst.length) :
    (copyAt dst pos src).length = dst.length := by
  simp only [copyAt, List.length_append, List.length_take, List.length_drop]
  omega

theorem putBytes_shaped (N : Nat) (buff : List Byte) (pos : Nat) (s : List Byte)
    (hb : Shaped N buff) (h0 : 0 < pos) (hi : pos + 2 ≤ N) :
    ∃ buff', putBytes buff pos s = .ok (buff', 2 + s.length) ∧ Shaped N buff' := by
  obtain ⟨hlen, hhead⟩ := hb
  unfold putBytes
  dsimp only
  rw [setIdx_ok _ _ _ (by omega)]
  simp only [Res.bind_ok]
  rw [setIdx_ok _ _ _ (by simp; omega)]
  simp only [Res.bind_ok]
  rw [if_pos (by simp; omega)]
  refine ⟨_, rfl, ?_, ?_⟩
  · rw [length_copyAt _ _ _ (by simp; omega)]
    simpa using hlen
  · simp only [copyAt, List.append_assoc]
    rw [List.getElem?_append_left (by simp; omega), List.getElem?_take_of_lt (by omega),
      List.getElem?_set_ne (by omega), List.getElem?_set_ne (by omega)]
    exact hhead

theorem rlCopyLoop_shaped (N : Nat) (rlBytes : List Byte) :
    ∀ (n i : Nat) (buff : List Byte), Shaped N buff → i + n ≤ rlBytes.length → i + n < N →
      ∃ buff', rlCopyLoop n i rlBytes buff = .ok buff' ∧ Shaped N buff' := by
  intro n
  induction n with
  | zero => intro i buff hb _ _; exact ⟨buff, rfl, hb⟩
  | succ n ih =>
    intro i buff hb h1 h2
    have hi : i < rlBytes.length := by omega
    obtain ⟨b1, e1, s1⟩ := setIdx_shaped N buff (i + 1) rlBytes[i] hb (by omega) (by omega)
    obtain ⟨b2, e2, s2⟩ := ih (i + 1) b1 s1 (by omega) (by omega)
    refine ⟨b2, ?_, s2⟩
    rw [rlCopyLoop]
    simp [index, List.getElem?_eq_getElem hi, e1, e2]

/-- On a positive representable length `getRL` returns 1 to 4 bytes in a 4-byte buffer. -/
theorem getRL_ok (n : Nat) (h1 : 1 ≤ n) (hn : n ≤ 2 ^ 28 - 1) :
    ∃ l b, getRL n = .ok (l, b) ∧ 1 ≤ l ∧ l ≤ 4 ∧ b.length = 4 := by
  have hn' : n < 268435456 := by norm_num at hn; omega
  rw [getRL_eq, if_neg (by omega)]
  by_cases c1 : n < 128
  · rw [if_pos c1]; exact ⟨1, _, rfl, by omega, by omega, rfl⟩
  rw [if_neg c1]
  by_cases c2 : n < 16384
  · rw [if_pos c2]; exact ⟨2, _, rfl, by omega, by omega, rfl⟩
  rw [if_neg c2]
  by_cases c3 : n < 2097152
  · rw [if_pos c3]; exact ⟨3, _, rfl, by omega, by omega, rfl⟩
  rw [if_neg c3, if_pos hn']
  exact ⟨4, _, rfl, by omega, by omega, rfl⟩

/-- The size computed by `GetBytes`, field by field. -/
theorem size_eq (p : ConnectPacket) :
    p.size = 8 + p.ProtocolName.length + p.ClientId.length
      + (if p.Flags.val &&& 0x80 > 0 then 2 + p.Username.length else 0)
      + (if p.Flags.val &&& 0x40 > 0 then 2 + p.Password.length else 0)
      + (if p.Flags.val &&& 0x04 > 0 then 4 + p.WillTopic.length + p.WillMsg.length else 0) := by
  simp only [ConnectPacket.size, ConnectPacket.isUserFlag, ConnectPacket.isPasswordFlag,
    ConnectPacket.isWillFlag, decide_eq_true_eq]
  split <;> split <;> split <;> omega

theorem good_ok (N : Nat) (buff : List Byte) (hb : Shaped N buff) : Good N (.ok buff) :=
  ⟨buff, rfl, hb⟩

theorem good_setIdx (N : Nat) (buff : List Byte) (i : Nat) (v : Byte)
    (f : List Byte → Res (List Byte))
    (hb : Shaped N buff) (h0 : 0 < i) (hi : i < N)
    (hf : ∀ buff', Shaped N buff' → Good N (f buff')) :
    Good N ((setIdx buff i v).bind f) := by
  obtain ⟨b1, e1, s1⟩ := setIdx_shaped N buff i v hb h0 hi
  rw [e1]
  exact hf b1 s1

theorem good_putBytes (N : Nat) (buff : List Byte) (pos : Nat) (s : List Byte)
    (f : List Byte × Nat → Res (List Byte))
    (hb : Shaped N buff) (h0 : 0 < pos) (hi : pos + 2 ≤ N)
    (hf : ∀ buff', Shaped N buff' → Good N (f (buff', 2 + s.length))) :
    Good N ((putBytes buff pos s).bind f) := by
  obtain ⟨b1, e1, s1⟩ := putBytes_shaped N buff pos s hb h0 hi
  rw [e1]
  exact hf b1 s1

/-- `GetBytes` returns a buffer of `size + rlLen + 1` bytes that starts with `0x10`. -/
theorem GetBytes_good (p : ConnectPacket) (k : Nat) (rl : List Byte)
    (hrl : getRL p.size = .ok (k, rl)) (hk1 : 1 ≤ k) (hk4 : k ≤ 4) (hrlen : rl.length = 4) :
    Good (p.size + k + 1) p.GetBytes := by
  have hsize : p.size = 8 + p.ProtocolName.length + p.ClientId.length
      + (if p.isUserFlag = true then 2 + p.Username.length else 0)
      + (if p.isPasswordFlag = true then 2 + p.Password.length else 0)
      + (if p.isWillFlag = true then 4 + p.WillTopic.length + p.WillMsg.length else 0) := by
    simp only [ConnectPacket.size]
    split <;> split <;> split <;> omega
  unfold ConnectPacket.GetBytes
  simp only [hrl, Res.bind_ok]
  generalize hN : p.size + k + 1 = N
  rw [setIdx_ok _ 0 _ (by simp; omega)]
  simp only [Res.bind_ok]
  have s1 : Shaped N ((List.replicate N (0 : Byte)).set 0 0x10) :=
    ⟨by simp, by rw [List.getElem?_set_self (by simp; omega)]⟩
  generalize (List.replicate N (0 : Byte)).set 0 0x10 = b1 at s1 ⊢
  obtain ⟨b2, e2, s2⟩ := rlCopyLoop_shaped N rl k 0 b1 s1 (by omega) (by omega)
  rw [e2]
  simp only [Res.bind_ok]
  refine good_putBytes N _ _ _ _ s2 (by omega) (by omega) (fun b3 s3 => ?_)
  refine good_setIdx N _ _ _ _ s3 (by omega) (by omega) (fun b4 s4 => ?_)
  refine good_setIdx N _ _ _ _ s4 (by omega) (by omega) (fun b5 s5 => ?_)
  refine good_setIdx N _ _ _ _ s5 (by omega) (by omega) (fun b6 s6 => ?_)
  refine good_setIdx N _ _ _ _ s6 (by omega) (by omega) (fun b7 s7 => ?_)
  refine good_putBytes N _ _ _ _ s7 (by omega) (by omega) (fun b8 s8 => ?_)
  cases hW : p.isWillFlag <;> cases hU : p.isUserFlag <;> cases hP : p.isPasswordFlag <;>
    simp only [hW, hU, hP, if_true, if_false, Bool.false_eq_true, Res.bind_ok,
      Res.bind_assoc] at hsize ⊢
  · exact good_ok N _ s8
  all_goals
    refine good_putBytes N _ _ _ _ s8 (by omega) (by omega) (fun b9 s9 => ?_)
    simp only [Res.bind_ok]
    first
    | exact good_ok N _ s9
    | (refine good_putBytes N _ _ _ _ s9 (by omega) (by omega) (fun b10 s10 => ?_)
       simp only [Res.bind_ok]
       first
       | exact good_ok N _ s10
       | (refine good_putBytes N _ _ _ _ s10 (by omega) (by omega) (fun b11 s11 => ?_)
          simp only [Res.bind_ok]
          first
          | exact good_ok N _ s11
          | (refine good_putBytes N _ _ _ _ s11 (by omega) (by omega) (fun b12 s12 => ?_)
             simp only [Res.bind_ok]
             exact good_ok N _ s12)))

/-- C3: for every ConnectPacket p with size(p) ≤ 2^28-1, where size(p) = 8 +
len(ProtocolName) + len(ClientId) + (2 + len(Username) if flag bit 7 is set) +
(2 + len(Password) if flag bit 6 is set) + (4 + len(WillTopic) + len(WillMsg) if flag bit
2 is set), the buffer returned by GetBytes(p) has length exactly 1 + k + size(p), where k
is the byte count getRL returns for size(p), and its byte 0 is 0x10. -/
theorem GetBytes_length (p : ConnectPacket) (hsz : p.size ≤ 2 ^ 28 - 1) :
    p.size = 8 + p.ProtocolName.length + p.ClientId.length
      + (if p.Flags.val.testBit 7 then 2 + p.Username.length else 0)
      + (if p.Flags.val.testBit 6 then 2 + p.Password.length else 0)
      + (if p.Flags.val.testBit 2 then 4 + p.WillTopic.length + p.WillMsg.length else 0) ∧
    ∃ k rl buff, getRL p.size = .ok (k, rl) ∧ p.GetBytes = .ok buff ∧
      buff.length = 1 + k + p.size ∧ buff[0]? = some 0x10 := by
  have hbits : ∀ f : Byte, (f.val &&& 0x80 > 0 ↔ f.val.testBit 7 = true) ∧
      (f.val &&& 0x40 > 0 ↔ f.val.testBit 6 = true) ∧
      (f.val &&& 0x04 > 0 ↔ f.val.testBit 2 = true) := by
    intro f
    have h := f.isLt
    generalize f.val = x at h
    interval_cases x <;> decide
  have hsize := size_eq p
  constructor
  · rw [hsize]
    simp only [(hbits p.Flags).1, (hbits p.Flags).2.1, (hbits p.Flags).2.2]
  have h8 : 8 ≤ p.size := by rw [hsize]; omega
  obtain ⟨k, rl, hrl, hk1, hk4, hrlen⟩ := getRL_ok p.size (by omega) hsz
  obtain ⟨buff, hbuff, hlen, hhead⟩ := GetBytes_good p k rl hrl hk1 hk4 hrlen
  exact ⟨k, rl, buff, hrl, hbuff, by omega, hhead⟩


theorem GetBytes_length_witness :
    (connectSmall.size ≤ 2 ^ 28 - 1) ∧
    (connectSmall.size = 8 + connectSmall.ProtocolName.length + connectSmall.ClientId.length
      + (if connectSmall.Flags.val.testBit 7 then 2 + connectSmall.Username.length else 0)
      + (if connectSmall.Flags.val.testBit 6 then 2 + connectSmall.Password.length else 0)
      + (if connectSmall.Flags.val.testBit 2 then
          4 + connectSmall.WillTopic.length + connectSmall.WillMsg.length else 0) ∧
    ∃ k rl buff, getRL connectSmall.size = .ok (k, rl) ∧ connectSmall.GetBytes = .ok buff ∧
      buff.length = 1 + k + connectSmall.size ∧ buff[0]? = some 0x10) :=
  ⟨by decide, GetBytes_length connectSmall (by decide)⟩

/-! ## Inputs on which the code departs from the specification -/

set_option maxRecDepth 100000 in
/-- C1 (the code departs from the claim): the packet `connect64`, whose username and
password are set through the setters and whose Remaining Length is 64, is encoded by
GetBytes to the specified layout, and NewConnect panics on those bytes instead of
returning the packet: the skip loop tests bit 6 (`0b1000000`) of the Remaining Length
byte 0x40, takes it for a continuation byte and drops one byte too many. -/
theorem connect_roundtrip_rl64_panics :
    connect64.Flags = 0xc2 ∧
    connect64.size = 64 ∧
    connect64.GetBytes = .ok (specConnectLayout connect64) ∧
    (connect64.GetBytes).bind NewConnect = .panic ∧
    (connect64.GetBytes).bind NewConnect ≠ .ok connect64 := by
  decide

set_option maxRecDepth 100000 in
/-- C2 (the code departs from the claim): for the packet `connect128`, whose Remaining
Length 128 takes two bytes (0x80 0x01), GetBytes writes the protocol name at the literal
position 2, over the second Remaining Length byte, and leaves a zero byte before the
version; the bytes differ from the specified layout from index 2 on. -/
theorem GetBytes_rl128_layout_differs :
    connect128.size = 128 ∧
    connect128.GetBytes =
      .ok ([0x10, 0x80, 0x00, 0x04] ++ mqttName ++ [0x00, 4, 2, 0, 60, 0, 116]
        ++ List.replicate 116 0x61) ∧
    specConnectLayout connect128 =
      [0x10, 0x80, 0x01, 0x00, 0x04] ++ mqttName ++ [4, 2, 0, 60, 0, 116]
        ++ List.replicate 116 0x61 ∧
    connect128.GetBytes ≠ .ok (specConnectLayout connect128) := by
  decide

set_option maxRecDepth 100000 in
/-- C10 (the code departs from the claim): the buffer for identifier 0x0102 and the
filters ("a/b", 0), ("c/d", 1) decodes as claimed, but the buffer for identifier 0x0102
and one filter with a 59-byte name, whose Remaining Length byte is 0x40, makes
NewSubscribe panic: the skip loop tests bit 6 (`0b1000000`) and skips one byte too many. -/
theorem NewSubscribe_rl64_panics :
    NewSubscribe (specSubscribeWire 0x82 0x0102 filtersAbCd) =
      .ok { Id := 258, TopicFilters := filtersAbCd } ∧
    specSubscribeWire 0x82 0x0102 filters64 =
      [0x82, 0x40, 0x01, 0x02, 0x00, 59] ++ List.replicate 59 0x61 ++ [1] ∧
    NewSubscribe (specSubscribeWire 0x82 0x0102 filters64) = .panic := by
  decide


set_option maxRecDepth 100000 in
/-- C11 (the code departs from the claim): the buffer for topic "t" and payload [1,2,3]
decodes as claimed, but the buffer for topic "t" and a 61-byte payload, whose Remaining
Length byte is 0x40, makes NewPublish panic: the skip loop tests bit 6 (`0b1000000`),
skips one byte too many and reads the topic length as 0x0174. -/
theorem NewPublish_rl64_panics :
    NewPublish (specPublishWire 0x30 [0x74] [1, 2, 3]) =
      .ok { Topic := [0x74], Payload := [1, 2, 3] } ∧
    specPublishWire 0x30 [0x74] (List.replicate 61 7) =
      [0x30, 0x40, 0x00, 0x01, 0x74] ++ List.replicate 61 7 ∧
    NewPublish (specPublishWire 0x30 [0x74] (List.replicate 61 7)) = .panic := by
  decide

/-! ## Message types -/

theorem DecodeMsgType_eq (b : Byte) : DecodeMsgType b = b.val >>> 4 := by
  have h := b.isLt
  unfold DecodeMsgType
  simp only [Byte.ofNat_val]
  generalize b.val = x at h
  interval_cases x <;> rfl

theorem nibble_lt (b : Byte) : b.val >>> 4 < 16 := by
  have h := b.isLt
  rw [Nat.shiftRight_eq_div_pow]
  norm_num
  omega

/-- C12: with the type codes CONNECT = 1 through DISCONNECT = 14, for every header byte
b, MsgTypeName(DecodeMsgType(b)) returns a name exactly when the top nibble (b >> 4) is
in 1..14 and fails (unknown type) when the top nibble is 0 or 15; DecodeMsgType depends
only on the top nibble of b; and byte 0x10 maps to CONNECT, whose name is "CONNECT". -/
theorem msgType_lookup (b : Byte) :
    CONNECT = 1 ∧ DISCONNECT = 14 ∧
    ((∃ name, MsgTypeName (DecodeMsgType b) = .ok name) ↔
      (1 ≤ b.val >>> 4 ∧ b.val >>> 4 ≤ 14)) ∧
    (MsgTypeName (DecodeMsgType b) = .panic ↔ (b.val >>> 4 = 0 ∨ b.val >>> 4 = 15)) ∧
    (∀ b' : Byte, b'.val >>> 4 = b.val >>> 4 → DecodeMsgType b' = DecodeMsgType b) ∧
    DecodeMsgType 0x10 = CONNECT ∧ MsgTypeName CONNECT = .ok "CONNECT" := by
  refine ⟨rfl, rfl, ?_, ?_, ?_, rfl, rfl⟩
  · rw [DecodeMsgType_eq]
    have h := nibble_lt b
    generalize b.val >>> 4 = n at h
    interval_cases n <;>
      simp [MsgTypeName, msgTypeLookup, CONNECT, CONNACK, PUBLISH, PUBACK, PUBREC, PUBREL,
        PUBCOMP, SUBSCRIBE, SUBACK, UNSUBSCRIBE, UNSUBACK, PINGREQ, PINGRESP, DISCONNECT]
  · rw [DecodeMsgType_eq]
    have h := nibble_lt b
    generalize b.val >>> 4 = n at h
    interval_cases n <;>
      simp [MsgTypeName, msgTypeLookup, CONNECT, CONNACK, PUBLISH, PUBACK, PUBREC, PUBREL,
        PUBCOMP, SUBSCRIBE, SUBACK, UNSUBSCRIBE, UNSUBACK, PINGREQ, PINGRESP, DISCONNECT]
  · intro b' hb
    rw [DecodeMsgType_eq, DecodeMsgType_eq, hb]

/-! ## Further inputs on which the code departs from the specification -/

set_option maxRecDepth 100000 in
/-- C13 (the code departs from the claim): in the 68-byte buffer `subscribeTrailing`
the header byte, the one-byte Remaining Length field 0x42 and the identifier are followed
by one complete filter and then 61 bytes whose length prefix declares 256 name bytes, a
trailing partial record, and NewSubscribe returns a packet with two filters instead of
failing: the skip loop tests bit 6 (`0b1000000`), skips one byte too many, and read from
there the rest of the buffer is exactly two filters. -/
theorem NewSubscribe_trailing_partial_returns :
    specRLField (subscribeTrailing.drop 1) 1 ∧
    subscribeTrailing.length = 68 ∧
    (subscribeTrailing.drop (1 + 1 + 2)).take 3 = specFilterBytes { Name := [], QoS := 0 } ∧
    (subscribeTrailing.drop (1 + 1 + 2 + 3)).take 2 = [0x01, 0x00] ∧
    (subscribeTrailing.drop (1 + 1 + 2 + 3)).length = 61 ∧
    NewSubscribe subscribeTrailing = .ok { Id := 0, TopicFilters := filtersTrailing } := by
  unfold specRLField
  decide

/-- C14 (the code departs from the claim): GetBytes of `connectSmall` is 16 bytes long,
and NewConnect applied to its first 15 bytes returns a packet whose ClientId is the
one-byte string "a" instead of failing; `bytes.Buffer.Next` hands back what is left of a
truncated string. -/
theorem NewConnect_truncated_returns :
    connectSmall.GetBytes =
      .ok [0x10, 14, 0, 4, 0x4d, 0x51, 0x54, 0x54, 4, 2, 0, 60, 0, 2, 0x61, 0x62] ∧
    NewConnect [0x10, 14, 0, 4, 0x4d, 0x51, 0x54, 0x54, 4, 2, 0, 60, 0, 2, 0x61] =
      .ok { connectSmall with ClientId := [0x61] } := by
  decide

/-- C15 (the code departs from the claim): the skip loops test bit 6 (`0b1000000`), not
the top bit. On `skipOneByte`, whose Remaining Length field is the single byte 0x40, they
skip 3 bytes instead of 2 and NewSubscribe takes the identifier from indices 3 and 4; on
`skipTwoBytes`, whose Remaining Length field is the two bytes 0x80 0x01, they skip 2
bytes instead of 3 and NewSubscribe takes the identifier from indices 2 and 3. -/
theorem skip_tests_bit_six :
    specRLField (skipOneByte.drop 1) 1 ∧
    skipIdx skipOneByte.length skipOneByte 2 = .ok 3 ∧
    skipRL (skipOneByte.drop 1) = .ok (skipOneByte.drop 3) ∧
    NewSubscribe skipOneByte = .ok { Id := 0x0203, TopicFilters := [] } ∧
    specRLField (skipTwoBytes.drop 1) 2 ∧
    skipIdx skipTwoBytes.length skipTwoBytes 2 = .ok 2 ∧
    skipRL (skipTwoBytes.drop 1) = .ok (skipTwoBytes.drop 2) ∧
    NewSubscribe skipTwoBytes =
      .ok { Id := 0x0101, TopicFilters := [{ Name := [], QoS := 5 }] } := by
  unfold specRLField
  decide

/-! ## `getRL`: the 4-byte buffer -/

/-- After four iterations `getRL` is at index 4 with `n / 2^28` still to encode. -/
theorem getRL_four_steps (n : Nat) (h : 2 ^ 28 ≤ n) :
    ∃ b : List Byte, b.length = 4 ∧ getRL n = getRLLoop (n + 1) (n / 2 ^ 28) 4 b := by
  have hn : 268435456 ≤ n := by norm_num at h; exact h
  unfold getRL
  rw [← getRLLoop_fuel_add 5 n n 0 _ (Nat.le_refl n)]
  show ∃ b : List Byte, b.length = 4 ∧
    getRLLoop (n + 4 + 1) n 0 [0, 0, 0, 0] = getRLLoop (n + 1) (n / 2 ^ 28) 4 b
  rw [getRLLoop_step _ _ _ _ (by omega) (by simp)]
  rw [getRLLoop_step _ _ _ _ (by omega) (by simp)]
  rw [getRLLoop_step _ _ _ _ (by omega) (by simp)]
  rw [getRLLoop_step _ _ _ _ (by omega) (by simp)]
  have e : n / 128 / 128 / 128 / 128 = n / 2 ^ 28 := by
    norm_num
    omega
  rw [e]
  exact ⟨_, by simp, rfl⟩

/-- C19: for every n ≥ 0, getRL(n) completes without an out-of-range write if and only if
n ≤ 2^28-1; for every n ≥ 2^28 it attempts to write a fifth byte (index 4 of a 4-byte
buffer) and fails. -/
theorem getRL_in_bounds_iff (n : Nat) :
    ((∃ l b, getRL n = .ok (l, b)) ↔ n ≤ 2 ^ 28 - 1) ∧
    (getRL n = .panic ↔ 2 ^ 28 ≤ n) ∧
    getRL n ≠ .outOfFuel ∧
    (2 ^ 28 ≤ n → ∃ b : List Byte, b.length = 4 ∧ 0 < n / 2 ^ 28 ∧
      getRL n = getRLLoop (n + 1) (n / 2 ^ 28) 4 b ∧
      setIdx b 4 (Byte.ofNat (n / 2 ^ 28 &&& 0x7f)) = .panic) := by
  have key := getRL_eq n
  have hpow : (2 : Nat) ^ 28 = 268435456 := by norm_num
  refine ⟨?_, ?_, ?_, ?_⟩
  · rw [key, hpow]
    constructor
    · rintro ⟨l, b, h⟩
      by_contra hc
      have h5 : ¬ n < 268435456 := by omega
      simp [show ¬ n = 0 by omega, show ¬ n < 128 by omega, show ¬ n < 16384 by omega,
        show ¬ n < 2097152 by omega, h5] at h
    · intro h
      split
      · exact ⟨_, _, rfl⟩
      split
      · exact ⟨_, _, rfl⟩
      split
      · exact ⟨_, _, rfl⟩
      split
      · exact ⟨_, _, rfl⟩
      split
      · exact ⟨_, _, rfl⟩
      · omega
  · rw [key, hpow]
    constructor
    · intro h
      by_contra hc
      have h5 : n < 268435456 := by omega
      split_ifs at h
    · intro h
      simp [show ¬ n = 0 by omega, show ¬ n < 128 by omega, show ¬ n < 16384 by omega,
        show ¬ n < 2097152 by omega, show ¬ n < 268435456 by omega]
  · rw [key]
    repeat' split
    all_goals simp
  · intro h
    obtain ⟨b, hb, hloop⟩ := getRL_four_steps n h
    refine ⟨b, hb, ?_, hloop, setIdx_panic b 4 _ (by omega)⟩
    exact Nat.div_pos h (by norm_num)

theorem getRL_in_bounds_iff_witness :
    (2 ^ 28 ≤ 268435456) ∧
    ∃ b : List Byte, b.length = 4 ∧ 0 < 268435456 / 2 ^ 28 ∧
      getRL 268435456 = getRLLoop (268435456 + 1) (268435456 / 2 ^ 28) 4 b ∧
      setIdx b 4 (Byte.ofNat (268435456 / 2 ^ 28 &&& 0x7f)) = .panic :=
  ⟨by norm_num, (getRL_in_bounds_iff 268435456).2.2.2 (by norm_num)⟩

/-! ## SUBSCRIBE: termination and exact consumption -/

theorem Res.bind_eq_ok {α β : Type} (r : Res α) (f : α → Res β) (b : β) :
    r.bind f = .ok b ↔ ∃ a, r = .ok a ∧ f a = .ok b := by
  cases r <;> simp [Res.bind]

theorem Res.bind_ne_outOfFuel {α β : Type} (r : Res α) (f : α → Res β)
    (hr : r ≠ .outOfFuel) (hf : ∀ a, r = .ok a → f a ≠ .outOfFuel) :
    r.bind f ≠ .outOfFuel := by
  cases r with
  | ok a => exact hf a rfl
  | panic => simp [Res.bind]
  | outOfFuel => exact absurd rfl hr

theorem index_ne_outOfFuel (buff : List Byte) (i : Nat) : index buff i ≠ .outOfFuel := by
  unfold index
  split <;> simp

theorem index_eq_ok (buff : List Byte) (i : Nat) (v : Byte) (h : index buff i = .ok v) :
    i < buff.length := by
  unfold index at h
  split at h
  · rename_i w hw
    exact (List.getElem?_eq_some.mp hw).1
  · cases h

theorem slice_ne_outOfFuel (buff : List Byte) (lo hi : Nat) :
    slice buff lo hi ≠ .outOfFuel := by
  unfold slice
  split <;> simp

theorem slice_eq_ok (buff : List Byte) (lo hi : Nat) (t : List Byte)
    (h : slice buff lo hi = .ok t) : lo ≤ hi ∧ hi ≤ buff.length ∧ t.length = hi - lo := by
  unfold slice at h
  split at h
  · rename_i hc
    cases h
    refine ⟨hc.1, hc.2, ?_⟩
    rw [List.length_take, List.length_drop]
    omega
  · cases h

/-- The header-skip loop ends before its fuel when the fuel covers the bytes ahead. -/
theorem skipIdx_ne_outOfFuel (payload : List Byte) :
    ∀ (fuel i : Nat), 1 ≤ i → payload.length ≤ fuel + (i - 1) →
      skipIdx fuel payload i ≠ .outOfFuel := by
  intro fuel
  induction fuel with
  | zero =>
    intro i _ hf
    rw [skipIdx]
    have : index payload (i - 1) = .panic := by
      unfold index
      rw [List.getElem?_eq_none (by omega)]
    rw [this]
    simp
  | succ f ih =>
    intro i hi hf
    rw [skipIdx]
    refine Res.bind_ne_outOfFuel _ _ (index_ne_outOfFuel _ _) (fun v _ => ?_)
    split
    · exact ih (i + 1) (by omega) (by omega)
    · simp

/-- The header-skip loop returns an index of at least its start. -/
theorem skipIdx_ge (payload : List Byte) :
    ∀ (fuel i j : Nat), skipIdx fuel payload i = .ok j → i ≤ j := by
  intro fuel
  induction fuel with
  | zero =>
    intro i j h
    rw [skipIdx, Res.bind_eq_ok] at h
    obtain ⟨v, _, h⟩ := h
    split at h
    · cases h
    · cases h; exact Nat.le_refl _
  | succ f ih =>
    intro i j h
    rw [skipIdx, Res.bind_eq_ok] at h
    obtain ⟨v, _, h⟩ := h
    split at h
    · have := ih (i + 1) j h
      omega
    · cases h; exact Nat.le_refl _

/-- The filter loop ends before its fuel when the fuel covers the bytes ahead: every
iteration moves the index by at least 3. -/
theorem filterLoop_ne_outOfFuel (payload : List Byte) :
    ∀ (fuel i : Nat) (filters : List TopicFilter), payload.length ≤ fuel + i →
      filterLoop fuel payload i filters ≠ .outOfFuel := by
  intro fuel
  induction fuel with
  | zero =>
    intro i filters hf
    rw [filterLoop, if_neg (by omega)]
    simp
  | succ f ih =>
    intro i filters hf
    rw [filterLoop]
    split
    · refine Res.bind_ne_outOfFuel _ _ (index_ne_outOfFuel _ _) (fun b0 _ => ?_)
      refine Res.bind_ne_outOfFuel _ _ (index_ne_outOfFuel _ _) (fun b1 _ => ?_)
      refine Res.bind_ne_outOfFuel _ _ (slice_ne_outOfFuel _ _ _) (fun t _ => ?_)
      refine Res.bind_ne_outOfFuel _ _ (index_ne_outOfFuel _ _) (fun q _ => ?_)
      exact ih _ _ (by omega)
    · simp

/-- The filter loop returns only when the index has reached the end of the buffer
exactly, and the filters it added account for every byte from its start. -/
theorem filterLoop_exact (payload : List Byte) :
    ∀ (fuel i : Nat) (filters out : List TopicFilter), i ≤ payload.length →
      filterLoop fuel payload i filters = .ok out →
      i + (out.map fun f => 3 + f.Name.length).sum =
        payload.length + (filters.map fun f => 3 + f.Name.length).sum := by
  intro fuel
  induction fuel with
  | zero =>
    intro i filters out hi h
    rw [filterLoop] at h
    split at h
    · cases h
    · cases h; omega
  | succ f ih =>
    intro i filters out hi h
    rw [filterLoop] at h
    split at h
    · simp only [Res.bind_eq_ok] at h
      obtain ⟨b0, _, b1, _, t, ht, q, hq, h⟩ := h
      obtain ⟨_, _, htl⟩ := slice_eq_ok _ _ _ _ ht
      have hq' := index_eq_ok _ _ _ hq
      have := ih _ _ _ (by omega) h
      simp only [List.map_append, List.sum_append, List.map_cons, List.map_nil,
        List.sum_cons, List.sum_nil] at this
      omega
    · cases h; omega

/-- C20: for every byte buffer, the header-skip loop and the filter loop of NewSubscribe
finish (the read index strictly increases, by at least 3 per filter), so NewSubscribe
either returns a packet or fails on an out-of-range read; and whenever it returns a
packet, (number of header and Remaining Length bytes it skipped) + 2 + the sum over the
returned filters of (3 + len(Name)) equals len(buffer). -/
theorem NewSubscribe_total_exact (payload : List Byte) :
    ((∃ pkt, NewSubscribe payload = .ok pkt) ∨ NewSubscribe payload = .panic) ∧
    (∀ pkt, NewSubscribe payload = .ok pkt →
      ∃ i, skipIdx payload.length payload 2 = .ok i ∧ 2 ≤ i ∧
        i + 2 + (pkt.TopicFilters.map fun f => 3 + f.Name.length).sum = payload.length) := by
  constructor
  · have hne : NewSubscribe payload ≠ .outOfFuel := by
      unfold NewSubscribe
      refine Res.bind_ne_outOfFuel _ _
        (skipIdx_ne_outOfFuel payload _ 2 (by omega) (by omega)) (fun i _ => ?_)
      refine Res.bind_ne_outOfFuel _ _ (index_ne_outOfFuel _ _) (fun hi _ => ?_)
      refine Res.bind_ne_outOfFuel _ _ (index_ne_outOfFuel _ _) (fun lo _ => ?_)
      refine Res.bind_ne_outOfFuel _ _
        (filterLoop_ne_outOfFuel payload _ _ _ (by omega)) (fun fs _ => ?_)
      simp
    cases h : NewSubscribe payload with
    | ok pkt => exact Or.inl ⟨pkt, rfl⟩
    | panic => exact Or.inr rfl
    | outOfFuel => exact absurd h hne
  · intro pkt h
    unfold NewSubscribe at h
    simp only [Res.bind_eq_ok] at h
    obtain ⟨i, hi, hiB, _, loB, hlo, fs, hfs, hpkt⟩ := h
    have hlo' := index_eq_ok _ _ _ hlo
    have hex := filterLoop_exact payload _ _ _ _ (by omega) hfs
    cases hpkt
    refine ⟨i, hi, skipIdx_ge payload _ _ _ hi, ?_⟩
    simp only [List.map_nil, List.sum_nil] at hex
    dsimp only
    omega

theorem NewSubscribe_total_exact_witness :
    (NewSubscribe [0x82, 14, 1, 2, 0, 3, 0x61, 0x2f, 0x62, 0, 0, 3, 0x63, 0x2f, 0x64, 1] =
      .ok { Id := 258, TopicFilters := filtersAbCd }) ∧
    ∃ i, skipIdx ([0x82, 14, 1, 2, 0, 3, 0x61, 0x2f, 0x62, 0, 0, 3, 0x63, 0x2f, 0x64, 1] :
          List Byte).length
        [0x82, 14, 1, 2, 0, 3, 0x61, 0x2f, 0x62, 0, 0, 3, 0x63, 0x2f, 0x64, 1] 2 = .ok i ∧
      2 ≤ i ∧
      i + 2 + (({ Id := 258, TopicFilters := filtersAbCd } : SubscribePacket).TopicFilters.map
          fun f => 3 + f.Name.length).sum =
        ([0x82, 14, 1, 2, 0, 3, 0x61, 0x2f, 0x62, 0, 0, 3, 0x63, 0x2f, 0x64, 1] :
          List Byte).length :=
  ⟨by decide,
    (NewSubscribe_total_exact
      [0x82, 14, 1, 2, 0, 3, 0x61, 0x2f, 0x62, 0, 0, 3, 0x63, 0x2f, 0x64, 1]).2
      { Id := 258, TopicFilters := filtersAbCd } (by decide)⟩

/-! ## PUBLISH: the payload is the rest of the buffer -/

/-- The Remaining Length field of a length from 1 to 127 is that one byte. -/
theorem remainingLength_small (n : Nat) (h1 : 1 ≤ n) (h : n < 128) :
    remainingLength n = [Byte.ofNat n] := by
  unfold remainingLength
  rw [getRL_eq, if_neg (by omega), if_pos h]
  rfl

theorem and_40_of_lt (x : Nat) (h : x < 64) : (x % 256) &&& 0b1000000 = 0 := by
  interval_cases x <;> rfl

/-- `NewPublish` on a buffer whose second byte has bit 6 clear. -/
theorem NewPublish_cons (h r hi lo : Byte) (t rest : List Byte)
    (hr : r.val &&& 0b1000000 = 0) (htl : (hi.val <<< 8) + lo.val = t.length) :
    NewPublish (h :: r :: hi :: lo :: (t ++ rest)) = .ok { Topic := t, Payload := rest } := by
  unfold NewPublish
  rw [skipIdx.eq_def]
  simp only [index, Nat.add_one_sub_one, List.getElem?_cons_succ, List.getElem?_cons_zero,
    Res.bind_ok, hr, ne_eq, not_true_eq_false, if_false, htl]
  have e1 : slice (h :: r :: hi :: lo :: (t ++ rest)) (2 + 2) (2 + 2 + t.length) = .ok t := by
    unfold slice
    rw [if_pos (by simp; omega)]
    simp
  have e2 : slice (h :: r :: hi :: lo :: (t ++ rest)) (2 + (2 + t.length))
      (h :: r :: hi :: lo :: (t ++ rest)).length = .ok rest := by
    unfold slice
    rw [if_pos (by simp; omega)]
    have : 2 + (2 + t.length) = t.length + 1 + 1 + 1 + 1 := by omega
    rw [this]
    simp
  rw [e1]
  simp only [Res.bind_ok]
  rw [e2]
  simp

/-- C16: for every well-formed PUBLISH packet w with topic t and payload d whose Remaining
Length is below 64, and every byte sequence g appended after it, NewPublish(w ++ g)
returns Topic = t and Payload = d ++ g; the declared Remaining Length is never used to
bound the payload. -/
theorem NewPublish_rest_of_buffer (h : Byte) (t d g : List Byte)
    (hrl : 2 + t.length + d.length < 64) :
    NewPublish (specPublishWire h t d ++ g) = .ok { Topic := t, Payload := d ++ g } := by
  have hw : specPublishWire h t d ++ g =
      h :: Byte.ofNat (2 + t.length + d.length) :: Byte.ofNat (t.length / 256) ::
        Byte.ofNat (t.length % 256) :: (t ++ (d ++ g)) := by
    unfold specPublishWire specEncodeString
    rw [remainingLength_small _ (by omega) (by omega)]
    simp
  rw [hw]
  apply NewPublish_cons
  · exact and_40_of_lt _ hrl
  · have h0 : t.length / 256 = 0 := by omega
    have h1 : t.length % 256 = t.length := by omega
    simp [h0, h1]

theorem NewPublish_rest_of_buffer_witness :
    (2 + ([0x74] : List Byte).length + ([1, 2, 3] : List Byte).length < 64) ∧
    NewPublish (specPublishWire 0x30 [0x74] [1, 2, 3] ++ [0x30, 0x00]) =
      .ok { Topic := [0x74], Payload := [1, 2, 3] ++ [0x30, 0x00] } :=
  ⟨by decide, NewPublish_rest_of_buffer 0x30 [0x74] [1, 2, 3] [0x30, 0x00] (by decide)⟩

/-! ## CONNECT decoding: flags and fields -/

theorem byte_bits (f : Byte) : (f.val &&& 0x80 > 0 ↔ f.val.testBit 7 = true) ∧
    (f.val &&& 0x40 > 0 ↔ f.val.testBit 6 = true) ∧
    (f.val &&& 0x04 > 0 ↔ f.val.testBit 2 = true) := by
  have h := f.isLt
  generalize f.val = x at h
  interval_cases x <;> decide

/-- C17: for every buffer on which NewConnect returns a packet q, if flag bit 7 of q.Flags
is clear then q.Username is empty, if bit 6 is clear then q.Password is empty, and if bit
2 is clear then q.WillTopic and q.WillMsg are both empty. -/
theorem NewConnect_flags_agree (buff : List Byte) (q : ConnectPacket)
    (h : NewConnect buff = .ok q) :
    (q.Flags.val.testBit 7 = false → q.Username = []) ∧
    (q.Flags.val.testBit 6 = false → q.Password = []) ∧
    (q.Flags.val.testBit 2 = false → q.WillTopic = [] ∧ q.WillMsg = []) := by
  unfold NewConnect at h
  simp only [Res.bind_eq_ok, Prod.exists] at h
  obtain ⟨_, d1, _, d2, _, pn, d3, _, ver, d4, _, fl, d5, _, hi, d6, _, lo, d7, _, cid, d8, _,
    c1, d9, h1, c2, d10, h2, h3⟩ := h
  have hc1 : c1.Flags = fl ∧ c1.Username = [] ∧ c1.Password = [] ∧
      (fl.val &&& 0x04 > 0 ∨ (c1.WillTopic = [] ∧ c1.WillMsg = [])) := by
    split at h1
    · rename_i hw
      simp only [Res.bind_eq_ok] at h1
      obtain ⟨x, _, y, _, heq⟩ := h1
      simp only [Res.ok.injEq, Prod.mk.injEq] at heq
      obtain ⟨rfl, _⟩ := heq
      exact ⟨rfl, rfl, rfl, Or.inl (by simpa [ConnectPacket.isWillFlag] using hw)⟩
    · simp only [Res.ok.injEq, Prod.mk.injEq] at h1
      obtain ⟨rfl, _⟩ := h1
      exact ⟨rfl, rfl, rfl, Or.inr ⟨rfl, rfl⟩⟩
  obtain ⟨f1, u1, p1, w1⟩ := hc1
  have hc2 : c2.Flags = fl ∧ c2.Password = [] ∧ c2.WillTopic = c1.WillTopic ∧
      c2.WillMsg = c1.WillMsg ∧ (fl.val &&& 0x80 > 0 ∨ c2.Username = []) := by
    split at h2
    · rename_i hu
      simp only [Res.bind_eq_ok] at h2
      obtain ⟨x, _, heq⟩ := h2
      simp only [Res.ok.injEq, Prod.mk.injEq] at heq
      obtain ⟨rfl, _⟩ := heq
      exact ⟨f1, p1, rfl, rfl,
        Or.inl (by simpa [ConnectPacket.isUserFlag, f1] using hu)⟩
    · simp only [Res.ok.injEq, Prod.mk.injEq] at h2
      obtain ⟨rfl, _⟩ := h2
      exact ⟨f1, p1, rfl, rfl, Or.inr u1⟩
  obtain ⟨f2, p2, wt2, wm2, u2⟩ := hc2
  have hq : q.Flags = fl ∧ q.Username = c2.Username ∧ q.WillTopic = c2.WillTopic ∧
      q.WillMsg = c2.WillMsg ∧ (fl.val &&& 0x40 > 0 ∨ q.Password = []) := by
    split at h3
    · rename_i hp
      simp only [Res.bind_eq_ok] at h3
      obtain ⟨x, _, heq⟩ := h3
      simp only [Res.ok.injEq] at heq
      subst heq
      exact ⟨f2, rfl, rfl, rfl,
        Or.inl (by simpa [ConnectPacket.isPasswordFlag, f2] using hp)⟩
    · simp only [Res.ok.injEq] at h3
      subst h3
      exact ⟨f2, rfl, rfl, rfl, Or.inr p2⟩
  obtain ⟨f3, u3, wt3, wm3, p3⟩ := hq
  obtain ⟨b7, b6, b2⟩ := byte_bits fl
  rw [f3]
  refine ⟨fun hb => ?_, fun hb => ?_, fun hb => ?_⟩
  · rcases u2 with hu | hu
    · rw [b7.mp hu] at hb; cases hb
    · rw [u3, hu]
  · rcases p3 with hp | hp
    · rw [b6.mp hp] at hb; cases hb
    · exact hp
  · rcases w1 with hw | hw
    · rw [b2.mp hw] at hb; cases hb
    · rw [wt3, wm3, wt2, wm2]; exact hw

theorem NewConnect_flags_agree_witness :
    (NewConnect [0x10, 14, 0, 4, 0x4d, 0x51, 0x54, 0x54, 4, 2, 0, 60, 0, 2, 0x61, 0x62] =
      .ok connectSmall) ∧
    (connectSmall.Flags.val.testBit 7 = false → connectSmall.Username = []) ∧
    (connectSmall.Flags.val.testBit 6 = false → connectSmall.Password = []) ∧
    (connectSmall.Flags.val.testBit 2 = false →
      connectSmall.WillTopic = [] ∧ connectSmall.WillMsg = []) :=
  ⟨by decide,
    NewConnect_flags_agree
      [0x10, 14, 0, 4, 0x4d, 0x51, 0x54, 0x54, 4, 2, 0, 60, 0, 2, 0x61, 0x62] connectSmall
      (by decide)⟩

/-! ## CONNECT: layout and round trip of small packets -/

theorem replicate_zero_split (n k : Nat) (h : k ≤ n) :
    List.replicate n (0 : Byte) = List.replicate k 0 ++ List.replicate (n - k) 0 := by
  rw [← List.replicate_add]
  congr 1
  omega

/-- A write at the first unwritten position of a buffer `W ++ 0…0`. -/
theorem setIdx_written (W : List Byte) (n i : Nat) (v : Byte)
    (hi : i = W.length) (hn : 1 ≤ n) :
    setIdx (W ++ List.replicate n 0) i v = .ok ((W ++ [v]) ++ List.replicate (n - 1) 0) := by
  subst hi
  obtain ⟨m, rfl⟩ : ∃ m, n = m + 1 := ⟨n - 1, by omega⟩
  rw [setIdx_ok _ _ _ (by simp)]
  simp [List.replicate_succ]

theorem specEncodeString_eq (s : List Byte) :
    specEncodeString s =
      Byte.ofNat (s.length >>> 8) :: Byte.ofNat (s.length &&& 0xff) :: s := by
  have h1 : s.length >>> 8 = s.length / 256 := Nat.shiftRight_eq_div_pow _ 8
  have h2 : s.length &&& 0xff = s.length % 256 := Nat.and_pow_two_sub_one_eq_mod _ 8
  rw [h1, h2]
  rfl

/-- `putBytes` at the first unwritten position of a buffer `W ++ 0…0`. -/
theorem putBytes_written (W s : List Byte) (n pos : Nat)
    (hpos : pos = W.length) (hn : 2 + s.length ≤ n) :
    putBytes (W ++ List.replicate n 0) pos s =
      .ok ((W ++ specEncodeString s) ++ List.replicate (n - (2 + s.length)) 0,
           2 + s.length) := by
  subst hpos
  have e : List.replicate n (0 : Byte) =
      0 :: 0 :: (List.replicate s.length 0 ++ List.replicate (n - (2 + s.length)) 0) := by
    rw [replicate_zero_split n (2 + s.length) hn, Nat.add_comm 2 s.length,
      List.replicate_succ, List.replicate_succ]
    simp
  rw [e, putBytes_append W _ _ s 0 0 (by simp), specEncodeString_eq]
  simp

theorem append_replicate_zero (W : List Byte) (n : Nat) (h : n = 0) :
    W ++ List.replicate n 0 = W := by
  subst h
  simp

/-- The specified layout of a packet whose Remaining Length fits one byte, with the
flag tests and the byte conversions of the code. -/
theorem specConnectLayout_eq (p : ConnectPacket) (hsz : p.size < 128) :
    specConnectLayout p =
      ([0x10] : List Byte) ++ [Byte.ofNat p.size] ++ specEncodeString p.ProtocolName ++
        [p.Version] ++
        [p.Flags] ++ [Byte.ofNat (p.KeepAlive.val >>> 8)] ++
        [Byte.ofNat (p.KeepAlive.val &&& 255)] ++ specEncodeString p.ClientId
        ++ (if p.isWillFlag = true then
              specEncodeString p.WillTopic ++ specEncodeString p.WillMsg else [])
        ++ (if p.isUserFlag = true then specEncodeString p.Username else [])
        ++ (if p.isPasswordFlag = true then specEncodeString p.Password else []) := by
  have h8 : 8 ≤ p.size := by rw [size_eq p]; omega
  have hka1 : Byte.ofNat (p.KeepAlive.val >>> 8) = Byte.ofNat (p.KeepAlive.val / 256) := by
    rw [Nat.shiftRight_eq_div_pow]
  have hka2 : Byte.ofNat (p.KeepAlive.val &&& 255) = Byte.ofNat (p.KeepAlive.val % 256) := by
    rw [show (255 : Nat) = 2 ^ 8 - 1 by norm_num, Nat.and_pow_two_sub_one_eq_mod]
  obtain ⟨b7, b6, b2⟩ := byte_bits p.Flags
  have hU' : p.isUserFlag = true ↔ p.Flags.val.testBit 7 = true := by
    rw [← b7]; simp [ConnectPacket.isUserFlag]
  have hP' : p.isPasswordFlag = true ↔ p.Flags.val.testBit 6 = true := by
    rw [← b6]; simp [ConnectPacket.isPasswordFlag]
  have hW' : p.isWillFlag = true ↔ p.Flags.val.testBit 2 = true := by
    rw [← b2]; simp [ConnectPacket.isWillFlag]
  unfold specConnectLayout
  rw [remainingLength_small _ (by omega) hsz, hka1, hka2, if_congr hW' rfl rfl,
    if_congr hU' rfl rfl, if_congr hP' rfl rfl]
  simp

/-- The bytes that `GetBytes` writes after the Remaining Length, in the order it writes
them. -/
theorem GetBytes_small (p : ConnectPacket) (hsz : p.size < 128) :
    p.GetBytes = .ok (specConnectLayout p) := by
  have hsize : p.size = 8 + p.ProtocolName.length + p.ClientId.length
      + (if p.isUserFlag = true then 2 + p.Username.length else 0)
      + (if p.isPasswordFlag = true then 2 + p.Password.length else 0)
      + (if p.isWillFlag = true then 4 + p.WillTopic.length + p.WillMsg.length else 0) := by
    simp only [ConnectPacket.size]
    split <;> split <;> split <;> omega
  have h8 : 8 ≤ p.size := by rw [hsize]; omega
  have hrl : getRL p.size = .ok (1, [Byte.ofNat p.size, 0, 0, 0]) := by
    rw [getRL_eq, if_neg (by omega), if_pos hsz]
  have hinit : setIdx (List.replicate (p.size + 1 + 1) (0 : Byte)) 0 0x10 =
      .ok ([0x10] ++ List.replicate (p.size + 1) 0) := by
    rw [setIdx_ok _ _ _ (by simp)]
    simp [List.replicate_succ]
  have hcopy : rlCopyLoop 1 0 [Byte.ofNat p.size, 0, 0, 0]
      ([0x10] ++ List.replicate (p.size + 1) 0) =
      .ok (([0x10] ++ [Byte.ofNat p.size]) ++ List.replicate (p.size + 1 - 1) 0) := by
    rw [rlCopyLoop.eq_def]
    simp only [index, List.getElem?_cons_zero, Res.bind_ok]
    rw [setIdx_written _ _ _ _ (by simp) (by omega)]
    rfl
  unfold ConnectPacket.GetBytes
  simp only [hrl, Res.bind_ok, hinit, hcopy]
  rw [putBytes_written _ _ _ _ (by simp) (by omega)]
  simp only [Res.bind_ok]
  rw [setIdx_written _ _ _ _ (by simp [specEncodeString]; omega) (by omega)]
  simp only [Res.bind_ok]
  rw [setIdx_written _ _ _ _ (by simp [specEncodeString]; omega) (by omega)]
  simp only [Res.bind_ok]
  rw [setIdx_written _ _ _ _ (by simp [specEncodeString]; omega) (by omega)]
  simp only [Res.bind_ok]
  rw [setIdx_written _ _ _ _ (by simp [specEncodeString]; omega) (by omega)]
  simp only [Res.bind_ok]
  rw [putBytes_written _ _ _ _ (by simp [specEncodeString]; omega) (by omega)]
  simp only [Res.bind_ok]
  rw [specConnectLayout_eq p hsz]
  cases hW : p.isWillFlag <;> cases hU : p.isUserFlag <;> cases hP : p.isPasswordFlag <;>
    simp only [hW, hU, hP, if_true, if_false, Bool.false_eq_true, Res.bind_ok,
      Res.bind_assoc] at hsize ⊢
  all_goals
    repeat
      rw [putBytes_written _ _ _ _ (by simp [specEncodeString]; omega) (by omega)]
      simp only [Res.bind_ok]
  all_goals
    rw [append_replicate_zero _ _ (by omega)]
    simp

/-- `decodeString` on a length-prefixed string of the specification followed by
anything. -/
theorem decodeString_spec (s E : List Byte) (h : s.length ≤ 65535) :
    decodeString (specEncodeString s ++ E) = .ok (s, E) := by
  rw [specEncodeString_eq]
  exact decodeString_append s E h

theorem keepAlive_decodes (k : UInt16') :
    u16 ((u16 ((Byte.ofNat (k.val >>> 8)).val <<< 8)).val |||
      (Byte.ofNat (k.val &&& 0xff)).val) = k :=
  Fin.ext (len_prefix_decodes k.val (by have := k.isLt; omega))

/-- `NewConnect` reads back the specified layout of a packet whose Remaining Length is
below 64 and whose optional fields are empty when their flag is clear. -/
theorem NewConnect_layout (p : ConnectPacket) (hsz : p.size < 64)
    (hu : p.isUserFlag = false → p.Username = [])
    (hp : p.isPasswordFlag = false → p.Password = [])
    (hw : p.isWillFlag = false → p.WillTopic = [] ∧ p.WillMsg = []) :
    NewConnect (([0x10] : List Byte) ++ [Byte.ofNat p.size] ++
        specEncodeString p.ProtocolName ++ [p.Version] ++
        [p.Flags] ++ [Byte.ofNat (p.KeepAlive.val >>> 8)] ++
        [Byte.ofNat (p.KeepAlive.val &&& 255)] ++ specEncodeString p.ClientId
        ++ (if p.isWillFlag = true then
              specEncodeString p.WillTopic ++ specEncodeString p.WillMsg else [])
        ++ (if p.isUserFlag = true then specEncodeString p.Username else [])
        ++ (if p.isPasswordFlag = true then specEncodeString p.Password else [])) =
      .ok p := by
  have hsize : p.size = 8 + p.ProtocolName.length + p.ClientId.length
      + (if p.isUserFlag = true then 2 + p.Username.length else 0)
      + (if p.isPasswordFlag = true then 2 + p.Password.length else 0)
      + (if p.isWillFlag = true then 4 + p.WillTopic.length + p.WillMsg.length else 0) := by
    simp only [ConnectPacket.size]
    split <;> split <;> split <;> omega
  have hskip : (Byte.ofNat p.size).val &&& 0b1000000 = 0 := and_40_of_lt _ hsz
  unfold NewConnect
  simp only [List.append_assoc, List.singleton_append, List.cons_append, List.nil_append,
    getByte, skipRL, hskip, ne_eq, not_true_eq_false, if_false, Res.bind_ok]
  rw [decodeString_spec _ _ (by omega)]
  simp only [Res.bind_ok, keepAlive_decodes]
  rw [decodeString_spec _ _ (by omega)]
  simp only [Res.bind_ok]
  have eW : ∀ pn ver ka cid un pw wt wm,
      ({ ProtocolName := pn, Version := ver, Flags := p.Flags, KeepAlive := ka,
         ClientId := cid, Username := un, Password := pw, WillTopic := wt,
         WillMsg := wm } : ConnectPacket).isWillFlag = p.isWillFlag :=
    fun _ _ _ _ _ _ _ _ => rfl
  have eU : ∀ pn ver ka cid un pw wt wm,
      ({ ProtocolName := pn, Version := ver, Flags := p.Flags, KeepAlive := ka,
         ClientId := cid, Username := un, Password := pw, WillTopic := wt,
         WillMsg := wm } : ConnectPacket).isUserFlag = p.isUserFlag :=
    fun _ _ _ _ _ _ _ _ => rfl
  have eP : ∀ pn ver ka cid un pw wt wm,
      ({ ProtocolName := pn, Version := ver, Flags := p.Flags, KeepAlive := ka,
         ClientId := cid, Username := un, Password := pw, WillTopic := wt,
         WillMsg := wm } : ConnectPacket).isPasswordFlag = p.isPasswordFlag :=
    fun _ _ _ _ _ _ _ _ => rfl
  have dnil : ∀ s : List Byte, s.length ≤ 65535 →
      decodeString (specEncodeString s) = .ok (s, []) := by
    intro s hs
    have := decodeString_spec s [] hs
    rwa [List.append_nil] at this
  cases hW : p.isWillFlag <;> cases hU : p.isUserFlag <;> cases hP : p.isPasswordFlag <;>
    simp only [hW, hU, hP, if_true, if_false, Bool.false_eq_true, Res.bind_ok,
      List.nil_append, List.append_nil, List.append_assoc, true_implies, eW, eU,
      eP] at hsize hu hp hw ⊢
  all_goals
    repeat
      first
      | rw [decodeString_spec _ _ (by omega)]
      | rw [dnil _ (by omega)]
      | simp only [hW, hU, hP, if_true, if_false, Bool.false_eq_true, Res.bind_ok, eW, eU, eP]
  all_goals
    cases p
    simp_all

/-- C18: for every ConnectPacket p whose remaining length size(p) is below 64 and in which
Username, Password and WillTopic/WillMsg are empty whenever flag bits 7, 6 and 2
respectively are clear, NewConnect(GetBytes(p)) succeeds and returns a packet equal to p
in every field. -/
theorem connect_roundtrip_small (p : ConnectPacket) (hsz : p.size < 64)
    (hu : p.Flags.val.testBit 7 = false → p.Username = [])
    (hp : p.Flags.val.testBit 6 = false → p.Password = [])
    (hw : p.Flags.val.testBit 2 = false → p.WillTopic = [] ∧ p.WillMsg = []) :
    (p.GetBytes).bind NewConnect = .ok p := by
  obtain ⟨b7, b6, b2⟩ := byte_bits p.Flags
  rw [GetBytes_small p (by omega), Res.bind_ok, specConnectLayout_eq p (by omega)]
  apply NewConnect_layout p hsz
  · intro h
    apply hu
    cases hb : p.Flags.val.testBit 7
    · rfl
    · have := b7.mpr hb
      simp [ConnectPacket.isUserFlag] at h
      omega
  · intro h
    apply hp
    cases hb : p.Flags.val.testBit 6
    · rfl
    · have := b6.mpr hb
      simp [ConnectPacket.isPasswordFlag] at h
      omega
  · intro h
    apply hw
    cases hb : p.Flags.val.testBit 2
    · rfl
    · have := b2.mpr hb
      simp [ConnectPacket.isWillFlag] at h
      omega

theorem connect_roundtrip_small_witness :
    (connectCreds.size < 64) ∧
    (connectCreds.Flags.val.testBit 7 = false → connectCreds.Username = []) ∧
    (connectCreds.Flags.val.testBit 6 = false → connectCreds.Password = []) ∧
    (connectCreds.Flags.val.testBit 2 = false →
      connectCreds.WillTopic = [] ∧ connectCreds.WillMsg = []) ∧
    (connectCreds.GetBytes).bind NewConnect = .ok connectCreds :=
  ⟨by decide, by decide, by decide, by decide,
    connect_roundtrip_small connectCreds (by decide) (by decide) (by decide) (by decide)⟩

/-! ## SUBSCRIBE: a trailing partial record after the skipped bytes -/

theorem index_drop (payload : List Byte) (i k : Nat) :
    index payload (i + k) = index (payload.drop i) k := by
  unfold index
  rw [List.getElem?_drop]

/-- In the filter loop, complete filters followed by a partial record make the decoder
panic. -/
theorem filterLoop_partial_panics (payload tail : List Byte) :
    ∀ (fs : List TopicFilter) (fuel i : Nat) (acc : List TopicFilter),
      (∀ f ∈ fs, f.Name.length ≤ 65535) →
      i ≤ payload.length →
      payload.drop i = (fs.map specFilterBytes).flatten ++ tail →
      1 ≤ tail.length →
      tail.length < 2 + ((tail.getD 0 0).val <<< 8) + (tail.getD 1 0).val + 1 →
      payload.length ≤ fuel + i →
      filterLoop fuel payload i acc = .panic := by
  intro fs
  induction fs with
  | nil =>
    intro fuel i acc _ hi hdrop h1 h2 hfuel
    simp only [List.map_nil, List.flatten_nil, List.nil_append] at hdrop
    have hlen : payload.length = i + tail.length := by
      have := congrArg List.length hdrop
      rw [List.length_drop] at this
      omega
    obtain ⟨f, rfl⟩ : ∃ f, fuel = f + 1 := ⟨fuel - 1, by omega⟩
    rw [filterLoop, if_pos (by omega)]
    have i0 := index_drop payload i 0
    have i1 := index_drop payload i 1
    rw [Nat.add_zero] at i0
    match tail, h1, h2, hlen, hdrop with
    | [x], _, _, hlen, hdrop =>
      have hx : index payload i = .ok x := by rw [i0, hdrop]; simp [index]
      have hy : index payload (i + 1) = .panic := by rw [i1, hdrop]; simp [index]
      rw [hx, hy]
      rfl
    | x :: y :: rest, _, h2, hlen, hdrop =>
      have hx : index payload i = .ok x := by rw [i0, hdrop]; simp [index]
      have hy : index payload (i + 1) = .ok y := by rw [i1, hdrop]; simp [index]
      rw [hx, hy]
      simp only [Res.bind_ok]
      simp only [List.getD_cons_zero, List.getD_cons_succ, List.length_cons] at h2 hlen
      have hq : index payload (i + 2 + (x.val <<< 8 + y.val)) = .panic := by
        unfold index
        rw [List.getElem?_eq_none (by omega)]
      rw [hq]
      cases hsl : slice payload (i + 2) (i + 2 + (x.val <<< 8 + y.val)) with
      | ok t => rfl
      | panic => rfl
      | outOfFuel => exact absurd hsl (slice_ne_outOfFuel _ _ _)
  | cons f fs ih =>
    intro fuel i acc hnames hi hdrop h1 h2 hfuel
    have hname : f.Name.length ≤ 65535 := hnames f (List.mem_cons_self _ _)
    have hd : payload.drop i =
        Byte.ofNat (f.Name.length / 256) :: Byte.ofNat (f.Name.length % 256) ::
          (f.Name ++ f.QoS :: ((fs.map specFilterBytes).flatten ++ tail)) := by
      rw [hdrop]
      simp [specFilterBytes, specEncodeString]
    have hlen : payload.length =
        i + (2 + f.Name.length + 1 + ((fs.map specFilterBytes).flatten ++ tail).length) := by
      have := congrArg List.length hd
      rw [List.length_drop] at this
      simp only [List.length_cons, List.length_append] at this ⊢
      omega
    obtain ⟨fu, rfl⟩ : ∃ fu, fuel = fu + 1 := ⟨fuel - 1, by omega⟩
    have htl : (Byte.ofNat (f.Name.length / 256)).val <<< 8 +
        (Byte.ofNat (f.Name.length % 256)).val = f.Name.length := by
      simp only [Byte.ofNat_val, Nat.shiftLeft_eq]
      omega
    have i0 := index_drop payload i 0
    have i1 := index_drop payload i 1
    rw [Nat.add_zero] at i0
    have hx : index payload i = .ok (Byte.ofNat (f.Name.length / 256)) := by
      rw [i0, hd]; simp [index]
    have hy : index payload (i + 1) = .ok (Byte.ofNat (f.Name.length % 256)) := by
      rw [i1, hd]; simp [index]
    have hsl : slice payload (i + 2) (i + 2 + f.Name.length) = .ok f.Name := by
      unfold slice
      rw [if_pos (by omega), ← List.drop_drop, hd]
      simp
    have hq : index payload (i + 2 + f.Name.length) = .ok f.QoS := by
      rw [Nat.add_assoc, index_drop, hd]
      have : 2 + f.Name.length = f.Name.length + 1 + 1 := by omega
      rw [this]
      unfold index
      simp only [List.getElem?_cons_succ]
      rw [List.getElem?_append_right (Nat.le_refl _)]
      simp
    rw [filterLoop, if_pos (by omega), hx, hy]
    simp only [Res.bind_ok, htl]
    rw [hsl, hq]
    simp only [Res.bind_ok]
    apply ih
    · intro g hg
      exact hnames g (List.mem_cons_of_mem _ hg)
    · omega
    · have : i + 3 + f.Name.length = i + (f.Name.length + 1 + 1 + 1) := by omega
      rw [this, ← List.drop_drop, hd]
      simp
    · exact h1
    · exact h2
    · omega

/-- Read from the position that the skip loop of NewSubscribe reaches, complete filters
followed by a partial record make NewSubscribe panic. -/
theorem NewSubscribe_partial_panics (payload tail : List Byte) (fs : List TopicFilter)
    (i : Nat) (hskip : skipIdx payload.length payload 2 = .ok i)
    (hnames : ∀ f ∈ fs, f.Name.length ≤ 65535)
    (hi : i + 2 ≤ payload.length)
    (hdrop : payload.drop (i + 2) = (fs.map specFilterBytes).flatten ++ tail)
    (h1 : 1 ≤ tail.length)
    (h2 : tail.length < 2 + ((tail.getD 0 0).val <<< 8) + (tail.getD 1 0).val + 1) :
    NewSubscribe payload = .panic := by
  unfold NewSubscribe
  rw [hskip]
  simp only [Res.bind_ok]
  have hx : index payload i = .ok (payload.get ⟨i, by omega⟩) := by
    unfold index
    rw [List.getElem?_eq_getElem (by omega)]
    rfl
  have hy : index payload (i + 1) = .ok (payload.get ⟨i + 1, by omega⟩) := by
    unfold index
    rw [List.getElem?_eq_getElem (by omega)]
    rfl
  rw [hx, hy]
  simp only [Res.bind_ok]
  rw [filterLoop_partial_panics payload tail fs _ _ _ hnames hi hdrop h1 h2 (by omega)]
  rfl

end MqttProxy
